import Mathlib

/-!
Shallow embedding of the `fcp` container-queue library
(`include/ContainerQueue/Queue.hpp`, `UniqueIdQueue.hpp`, `TimeoutQueue.hpp`):
a fixed-capacity queue with uniqueness by identity and O(1) arbitrary
removal, realised as an intrusive doubly-linked list embedded in an array
indexed by each item's identity, plus a lock/semaphore façade.

Machine integers are modelled as `Nat`; the `size_t` sentinel
`std::numeric_limits<std::size_t>::max()` becomes the constant `kNil`,
and the façade's 16-bit sentinel becomes `kNil16`.  `T*` pointers become
`Option Item` (`none` = `nullptr`).  The C++ `std::array<Node, Capacity>`
becomes a `List Node` whose length is the template capacity; reads are
`List.getD` and writes `List.set`, and a separate access-index tracking
captures which raw indices each operation touches (out-of-bounds access
in C++ is undefined behaviour, so behavioural claims carry the in-bounds
precondition).
-/

namespace fcp

/-- `Queue::Status` from `Queue.hpp`. -/
inductive Status where
  | Ok
  | Full
  | Empty
  | Null
  | Duplicate
  | NotFound
  | InvalidId
  | Timeout
deriving DecidableEq, Repr

/-- A stored element: `GetId()` is the `id` field; `tag` distinguishes
distinct C++ objects that happen to share an identity. -/
structure Item where
  id : Nat
  tag : Nat
deriving DecidableEq, Repr

/-- `UniqueIdQueue::kNil = std::numeric_limits<std::size_t>::max()`. -/
def kNil : Nat := 2 ^ 64 - 1

/-- `UniqueIdQueue::Node`: link metadata plus a non-owning reference. -/
structure Node where
  prev : Nat
  next : Nat
  data : Option Item
deriving DecidableEq, Repr

/-- A default-initialised node (`prev = next = kNil`, `data = nullptr`). -/
def Node.free : Node := ⟨kNil, kNil, none⟩

/-- `Node::operator bool` — the slot is occupied iff `data != nullptr`. -/
def Node.occupied (n : Node) : Bool := n.data.isSome

/-- `n.data->GetId()`; dereferencing a null pointer is undefined
behaviour in C++, modelled by the junk value `0`. -/
def Node.dataId (n : Node) : Nat := (n.data.map Item.id).getD 0

/-- State of `UniqueIdQueue<T, Capacity>`: `data_.length` plays the role
of the template parameter `Capacity`, while `capacity_` is the runtime
capacity passed to the constructor. -/
structure UniqueIdQueue where
  size_ : Nat
  capacity_ : Nat
  head_ : Nat
  tail_ : Nat
  data_ : List Node
deriving DecidableEq, Repr

namespace UniqueIdQueue

/-- The constructor `UniqueIdQueue(capacity)`: member initialisers give
`size_ = 0`, `head_ = tail_ = kNil`, default-initialised array of `Cap`
nodes.  Note that it performs no check relating `capacity` to `Cap`. -/
def mk' (Cap capacity : Nat) : UniqueIdQueue :=
  ⟨0, capacity, kNil, kNil, List.replicate Cap Node.free⟩

/-- Read `data_[i]` (`List.getD`: an out-of-bounds C++ access is UB and
yields the default node here). -/
def getNode (s : UniqueIdQueue) (i : Nat) : Node := s.data_.getD i Node.free

/-- Write `data_[i]` (`List.set` ignores an out-of-bounds index). -/
def setNode (s : UniqueIdQueue) (i : Nat) (n : Node) : UniqueIdQueue :=
  { s with data_ := s.data_.set i n }

/-- `size()` -/
def size (s : UniqueIdQueue) : Nat := s.size_

/-- `full()` -/
def full (s : UniqueIdQueue) : Bool := s.size_ == s.capacity_

/-- `empty()` -/
def isEmpty (s : UniqueIdQueue) : Bool := s.size_ == 0

/-- `IdValid(id)` -/
def IdValid (s : UniqueIdQueue) (id : Nat) : Bool := id < s.capacity_

/-- `link(Node &n)` where `n` is `data_[i]`; the C++ reference is the
index `i`.  Statements are replayed in order: `n.prev = tail_;
n.next = kNil;` then either `data_[tail_].next = id` or `head_ = id`,
finally `tail_ = id`. -/
def link (s : UniqueIdQueue) (i : Nat) : UniqueIdQueue :=
  let id := (s.getNode i).dataId
  let s1 := s.setNode i { s.getNode i with prev := s.tail_, next := kNil }
  let s2 :=
    if s1.tail_ ≠ kNil then
      s1.setNode s1.tail_ { s1.getNode s1.tail_ with next := id }
    else
      { s1 with head_ := id }
  { s2 with tail_ := id }

/-- `unlink(Node &n)` where `n` is `data_[i]`.  Each C++ statement
re-reads `n`'s fields from current memory, so the embedding re-reads
node `i` after every write (faithful even under aliasing). -/
def unlink (s : UniqueIdQueue) (i : Nat) : UniqueIdQueue :=
  let s1 :=
    if (s.getNode i).prev ≠ kNil then
      s.setNode (s.getNode i).prev
        { s.getNode (s.getNode i).prev with next := (s.getNode i).next }
    else
      { s with head_ := (s.getNode i).next }
  let s2 :=
    if (s1.getNode i).next ≠ kNil then
      s1.setNode (s1.getNode i).next
        { s1.getNode (s1.getNode i).next with prev := (s1.getNode i).prev }
    else
      { s1 with tail_ := (s1.getNode i).prev }
  s2.setNode i { s2.getNode i with prev := kNil, next := kNil, data := none }

/-- `push(T &c)` -/
def push (s : UniqueIdQueue) (c : Item) : Status × UniqueIdQueue :=
  if s.full then (Status.Full, s)
  else if ¬ s.IdValid c.id then (Status.InvalidId, s)
  else if (s.getNode c.id).occupied then (Status.Duplicate, s)
  else
    let s1 := s.setNode c.id { s.getNode c.id with data := some c }
    let s2 := s1.link c.id
    (Status.Ok, { s2 with size_ := s2.size_ + 1 })

/-- `front(T *&out)`: `out` is the caller's pointer variable; the result
records the status and the final value of `out`. -/
def front (s : UniqueIdQueue) (out : Option Item) : Status × Option Item :=
  if s.isEmpty then (Status.Empty, out)
  else (Status.Ok, (s.getNode s.head_).data)

/-- `pop(T *&out)` -/
def pop (s : UniqueIdQueue) (out : Option Item) :
    Status × UniqueIdQueue × Option Item :=
  if s.isEmpty then (Status.Empty, s, out)
  else
    let out1 := (s.getNode s.head_).data
    let s1 := s.unlink s.head_
    (Status.Ok, { s1 with size_ := s1.size_ - 1 }, out1)

/-- `remove(uint16_t id)` — note: no emptiness check. -/
def removeId (s : UniqueIdQueue) (id : Nat) : Status × UniqueIdQueue :=
  if ¬ s.IdValid id then (Status.InvalidId, s)
  else if ¬ (s.getNode id).occupied then (Status.NotFound, s)
  else
    let s1 := s.unlink id
    (Status.Ok, { s1 with size_ := s1.size_ - 1 })

/-- `remove(T &c)` -/
def removeItem (s : UniqueIdQueue) (c : Item) : Status × UniqueIdQueue :=
  if s.isEmpty then (Status.Empty, s)
  else s.removeId c.id

end UniqueIdQueue

end fcp

namespace fcp

/-- `TimeoutQueue::kNil = std::numeric_limits<uint16_t>::max()`. -/
def kNil16 : Nat := 65535

/-- A default-initialised façade node (`prev = next = kNil16`). -/
def Node.free16 : Node := ⟨kNil16, kNil16, none⟩

/-- State of `TimeoutQueue<T, TMutex, TSemaphore, ...>`.  Its slot array
is `std::array<Node, kNil>`, i.e. `kNil16` nodes.  `mutexLocked` models
the injected mutex; `notifyCount` counts `TSemaphoreTrait::notify`
calls. -/
structure TimeoutQueue where
  size_ : Nat
  capacity_ : Nat
  head_ : Nat
  tail_ : Nat
  data_ : List Node
  mutexLocked : Bool
  notifyCount : Nat

namespace TimeoutQueue

/-- The constructor `TimeoutQueue(capacity)`; the traits' `init` leave
the mutex unlocked and the semaphore unsignalled. -/
def mk' (capacity : Nat) : TimeoutQueue :=
  ⟨0, capacity, kNil16, kNil16, List.replicate kNil16 Node.free16, false, 0⟩

/-- Read `data_[i]`. -/
def getNode (s : TimeoutQueue) (i : Nat) : Node := s.data_.getD i Node.free16

/-- Write `data_[i]`. -/
def setNode (s : TimeoutQueue) (i : Nat) (n : Node) : TimeoutQueue :=
  { s with data_ := s.data_.set i n }

/-- `TMutexTrait::lock(mutex_)` (single-caller model: acquires). -/
def lock (s : TimeoutQueue) : TimeoutQueue := { s with mutexLocked := true }

/-- `TMutexTrait::unlock(mutex_)`. -/
def unlock (s : TimeoutQueue) : TimeoutQueue := { s with mutexLocked := false }

/-- `TSemaphoreTrait::notify(semaphore_)`. -/
def notifyOne (s : TimeoutQueue) : TimeoutQueue :=
  { s with notifyCount := s.notifyCount + 1 }

/-- `size_impl()` -/
def sizeImpl (s : TimeoutQueue) : Nat := s.size_

/-- `full_impl()` -/
def fullImpl (s : TimeoutQueue) : Bool := s.size_ == s.capacity_

/-- `empty_impl()` -/
def emptyImpl (s : TimeoutQueue) : Bool := s.size_ == 0

/-- `IdValid(id)` -/
def IdValid (s : TimeoutQueue) (id : Nat) : Bool := id < s.capacity_

/-- `link(Node &n)` from `TimeoutQueue.hpp` (16-bit sentinel). -/
def link (s : TimeoutQueue) (i : Nat) : TimeoutQueue :=
  let id := (s.getNode i).dataId
  let s1 := s.setNode i { s.getNode i with prev := s.tail_, next := kNil16 }
  let s2 :=
    if s1.tail_ ≠ kNil16 then
      s1.setNode s1.tail_ { s1.getNode s1.tail_ with next := id }
    else
      { s1 with head_ := id }
  { s2 with tail_ := id }

/-- `unlink(Node &n)` from `TimeoutQueue.hpp` (16-bit sentinel). -/
def unlink (s : TimeoutQueue) (i : Nat) : TimeoutQueue :=
  let s1 :=
    if (s.getNode i).prev ≠ kNil16 then
      s.setNode (s.getNode i).prev
        { s.getNode (s.getNode i).prev with next := (s.getNode i).next }
    else
      { s with head_ := (s.getNode i).next }
  let s2 :=
    if (s1.getNode i).next ≠ kNil16 then
      s1.setNode (s1.getNode i).next
        { s1.getNode (s1.getNode i).next with prev := (s1.getNode i).prev }
    else
      { s1 with tail_ := (s1.getNode i).prev }
  s2.setNode i { s2.getNode i with prev := kNil16, next := kNil16, data := none }

/-- Modelled from the spec: the injected `TSemaphoreTrait::wait` is not
part of the repository; per its contract it releases the lock, suspends
until notified or timeout, re-acquires the lock before returning
(whether or not the predicate was satisfied), and re-checks the
predicate.  `satisfied` is the environment's choice of whether the wait
reported success; the conjunction with the predicate `!empty_impl()`
models the mandatory re-check (in this single-caller model the store
does not change while suspended). -/
def semWait (s : TimeoutQueue) (satisfied : Bool) : Bool × TimeoutQueue :=
  (satisfied && !(s.emptyImpl), s.lock)

/-- `TimeoutQueue::push(T &c)` -/
def push (s : TimeoutQueue) (c : Item) : Status × TimeoutQueue :=
  let s := s.lock
  if s.fullImpl then (Status.Full, s.unlock)
  else if ¬ s.IdValid c.id then (Status.InvalidId, s.unlock)
  else if (s.getNode c.id).occupied then (Status.Duplicate, s.unlock)
  else
    let s1 := s.setNode c.id { s.getNode c.id with data := some c }
    let s2 := s1.link c.id
    let s3 := { s2 with size_ := s2.size_ + 1 }
    (Status.Ok, s3.unlock.notifyOne)

/-- `TimeoutQueue::front(T *&out)` (const, but locks the mutable mutex). -/
def front (s : TimeoutQueue) (out : Option Item) :
    Status × TimeoutQueue × Option Item :=
  let s := s.lock
  if s.emptyImpl then (Status.Empty, s.unlock, out)
  else (Status.Ok, s.unlock, (s.getNode s.head_).data)

/-- `TimeoutQueue::pop(T *&out, long timeout_us)`: the wait primitive is
entered without the lock held and `timeout_us` is forwarded to it; the
`satisfied` oracle stands for whether the (timed) wait reported success.
On a failed wait the code returns `Status::Empty` without unlocking. -/
def pop (s : TimeoutQueue) (out : Option Item) (timeout_us : Int)
    (satisfied : Bool) : Status × TimeoutQueue × Option Item :=
  let _ := timeout_us
  let r := s.semWait satisfied
  if !r.1 then (Status.Empty, r.2, out)
  else
    let s1 := r.2
    let out1 := (s1.getNode s1.head_).data
    let s2 := s1.unlink s1.head_
    let s3 := { s2 with size_ := s2.size_ - 1 }
    (Status.Ok, s3.unlock, out1)

/-- `TimeoutQueue::remove(T &c)` -/
def remove (s : TimeoutQueue) (c : Item) : Status × TimeoutQueue :=
  let s := s.lock
  if s.emptyImpl then (Status.Empty, s.unlock)
  else if ¬ s.IdValid c.id then (Status.InvalidId, s.unlock)
  else if ¬ (s.getNode c.id).occupied then (Status.NotFound, s.unlock)
  else
    let s1 := s.unlink c.id
    let s2 := { s1 with size_ := s1.size_ - 1 }
    (Status.Ok, s2.unlock)

/-- `TimeoutQueue::size()` -/
def size (s : TimeoutQueue) : Nat × TimeoutQueue :=
  let s := s.lock
  (s.sizeImpl, s.unlock)

/-- The store part of a façade state: slots, head, tail, count (the
fields the container logic owns, as opposed to the synchronisation
primitives). -/
def tqStore (s : TimeoutQueue) : List Node × Nat × Nat × Nat :=
  (s.data_, s.head_, s.tail_, s.size_)

end TimeoutQueue

namespace UniqueIdQueue

/-- `chainSeg s p L q`: the slots listed in `L` form a doubly-linked
segment: the first node's `prev` is `p`, consecutive nodes point at each
other, and the last node's `next` is `q`. -/
def chainSeg (s : UniqueIdQueue) : Nat → List Nat → Nat → Prop
  | _, [], _ => True
  | p, i :: rest, q =>
      (s.getNode i).prev = p ∧ (s.getNode i).next = rest.headD q ∧
        chainSeg s i rest q

/-- The structural invariant of the slot store, relative to the list `L`
of linked slot indices in queue order: `size_` counts the linked slots,
`head_`/`tail_` frame a doubly-linked chain through exactly those slots
(no cycles — `L` has no duplicates — and no links to free slots), every
free slot is pristine, and each linked slot at index `i` stores an item
whose identity is `i`. -/
structure listInv (s : UniqueIdQueue) (L : List Nat) : Prop where
  cap_le : s.capacity_ ≤ s.data_.length
  cap_lt : s.capacity_ < kNil
  nodup : L.Nodup
  mem_lt : ∀ i ∈ L, i < s.capacity_
  size_eq : s.size_ = L.length
  head_eq : s.head_ = L.headD kNil
  tail_eq : s.tail_ = L.getLastD kNil
  chain : chainSeg s kNil L kNil
  free_eq : ∀ i < s.data_.length, i ∉ L → s.getNode i = Node.free
  data_eq : ∀ i ∈ L, ∃ c : Item, (s.getNode i).data = some c ∧ c.id = i

/-- The structural invariant: some list of linked indices realises the
store. -/
def Inv (s : UniqueIdQueue) : Prop := ∃ L, listInv s L

/-- The item stored at slot `i` (junk value on a free slot). -/
def itemAt (s : UniqueIdQueue) (i : Nat) : Item :=
  ((s.getNode i).data).getD ⟨0, 0⟩

/-- One mutating operation of the store. -/
inductive Op where
  | push (c : Item)
  | pop
  | removeItem (c : Item)
  | removeId (id : Nat)
deriving DecidableEq, Repr

/-- Apply one operation (discarding status and output). -/
def applyOp (s : UniqueIdQueue) : Op → UniqueIdQueue
  | .push c => (s.push c).2
  | .pop => (s.pop none).2.1
  | .removeItem c => (s.removeItem c).2
  | .removeId id => (s.removeId id).2

/-- Run a sequence of operations. -/
def runOps (s : UniqueIdQueue) (ops : List Op) : UniqueIdQueue :=
  ops.foldl applyOp s

/-- Push a list of items in order (discarding statuses). -/
def pushSeq (s : UniqueIdQueue) (cs : List Item) : UniqueIdQueue :=
  cs.foldl (fun t c => (t.push c).2) s

/-- `true` iff every push in the sequence returns `Ok`. -/
def pushSeqOk (s : UniqueIdQueue) : List Item → Bool
  | [] => true
  | c :: rest => (s.push c).1 == Status.Ok && pushSeqOk (s.push c).2 rest

/-- Pop repeatedly (with the given fuel), collecting the output items in
order, stopping at the first non-`Ok` status. -/
def popAllAux : Nat → UniqueIdQueue → List Item
  | 0, _ => []
  | fuel + 1, s =>
      match s.pop none with
      | (Status.Ok, s1, some c) => c :: popAllAux fuel s1
      | _ => []

/-- Drain the store by popping `size_` times. -/
def popAll (s : UniqueIdQueue) : List Item := popAllAux s.size_ s

/-! Raw indices at which each operation subscripts the `Capacity`-sized
array `data_`, replayed from the same control flow as the operations
themselves (an index `≥ data_.length` means the C++ code reads or
writes past the end of `std::array<Node, Capacity>`). -/

/-- Indices accessed by `link(data_[i])`: the node itself and, when the
store had a tail, the old tail node. -/
def linkAccesses (s : UniqueIdQueue) (i : Nat) : List Nat :=
  i :: (if s.tail_ ≠ kNil then [s.tail_] else [])

/-- Indices accessed by `unlink(data_[i])`, following the statement
order of the source (the second condition re-reads node `i` after the
first write). -/
def unlinkAccesses (s : UniqueIdQueue) (i : Nat) : List Nat :=
  let a1 := if (s.getNode i).prev ≠ kNil then [(s.getNode i).prev] else []
  let s1 :=
    if (s.getNode i).prev ≠ kNil then
      s.setNode (s.getNode i).prev
        { s.getNode (s.getNode i).prev with next := (s.getNode i).next }
    else
      { s with head_ := (s.getNode i).next }
  let a2 := if (s1.getNode i).next ≠ kNil then [(s1.getNode i).next] else []
  i :: (a1 ++ a2)

/-- Indices accessed by `push`. -/
def pushAccesses (s : UniqueIdQueue) (c : Item) : List Nat :=
  if s.full then []
  else if ¬ s.IdValid c.id then []
  else if (s.getNode c.id).occupied then [c.id]
  else c.id :: linkAccesses s c.id

/-- Indices accessed by `front`. -/
def frontAccesses (s : UniqueIdQueue) : List Nat :=
  if s.isEmpty then [] else [s.head_]

/-- Indices accessed by `pop`. -/
def popAccesses (s : UniqueIdQueue) : List Nat :=
  if s.isEmpty then [] else s.head_ :: unlinkAccesses s s.head_

/-- Indices accessed by `remove(uint16_t)`. -/
def removeIdAccesses (s : UniqueIdQueue) (id : Nat) : List Nat :=
  if ¬ s.IdValid id then []
  else if ¬ (s.getNode id).occupied then [id]
  else id :: unlinkAccesses s id

/-- Indices accessed by `remove(T&)`. -/
def removeItemAccesses (s : UniqueIdQueue) (c : Item) : List Nat :=
  if s.isEmpty then [] else removeIdAccesses s c.id

end UniqueIdQueue

-- sanity checks on concrete runs (scenario 2 of the spec, shortened)
example :
    let s0 := UniqueIdQueue.mk' 4 4
    let s1 := (s0.push ⟨0, 0⟩).2
    let s2 := (s1.push ⟨1, 0⟩).2
    let s3 := (s2.push ⟨2, 0⟩).2
    let s4 := (s3.removeId 1).2
    (s4.pop none).2.2 = some ⟨0, 0⟩ ∧ ((s4.pop none).2.1.pop none).2.2 = some ⟨2, 0⟩ := by
  decide

end fcp

namespace fcp

namespace UniqueIdQueue

theorem length_setNode (s : UniqueIdQueue) (i : Nat) (n : Node) :
    (s.setNode i n).data_.length = s.data_.length :=
  List.length_set ..

@[simp]
theorem setNode_size (s : UniqueIdQueue) (i : Nat) (n : Node) :
    (s.setNode i n).size_ = s.size_ := rfl

@[simp]
theorem setNode_capacity (s : UniqueIdQueue) (i : Nat) (n : Node) :
    (s.setNode i n).capacity_ = s.capacity_ := rfl

@[simp]
theorem setNode_head (s : UniqueIdQueue) (i : Nat) (n : Node) :
    (s.setNode i n).head_ = s.head_ := rfl

@[simp]
theorem setNode_tail (s : UniqueIdQueue) (i : Nat) (n : Node) :
    (s.setNode i n).tail_ = s.tail_ := rfl

theorem getNode_setNode_same {s : UniqueIdQueue} {i : Nat} (n : Node)
    (h : i < s.data_.length) : (s.setNode i n).getNode i = n := by
  simp [getNode, setNode, List.getD_eq_getElem?_getD, List.getElem?_set_self h]

theorem getNode_setNode_ne {s : UniqueIdQueue} {i j : Nat} (n : Node)
    (h : i ≠ j) : (s.setNode i n).getNode j = s.getNode j := by
  simp [getNode, setNode, List.getD_eq_getElem?_getD, List.getElem?_set_ne h]

theorem getNode_mk' (Cap cap i : Nat) :
    (mk' Cap cap).getNode i = Node.free := by
  simp only [mk', getNode, List.getD_eq_getElem?_getD, List.getElem?_replicate]
  split <;> rfl

theorem headD_append {α : Type _} (A B : List α) (q : α) :
    (A ++ B).headD q = A.headD (B.headD q) := by
  cases A <;> simp

@[simp]
theorem chainSeg_nil (s : UniqueIdQueue) (p q : Nat) : chainSeg s p [] q :=
  trivial

theorem chainSeg_cons {s : UniqueIdQueue} {p q i : Nat} {rest : List Nat} :
    chainSeg s p (i :: rest) q ↔
      (s.getNode i).prev = p ∧ (s.getNode i).next = rest.headD q ∧
        chainSeg s i rest q :=
  Iff.rfl

theorem chainSeg_congr {s s1 : UniqueIdQueue} {L : List Nat} {p q : Nat}
    (h : ∀ i ∈ L, s1.getNode i = s.getNode i) :
    chainSeg s p L q → chainSeg s1 p L q := by
  induction L generalizing p with
  | nil => intro _; trivial
  | cons i rest ih =>
    rintro ⟨h1, h2, h3⟩
    refine ⟨?_, ?_, ih (fun j hj => h j (by simp [hj])) h3⟩
    · rw [h i (by simp)]; exact h1
    · rw [h i (by simp)]; exact h2

theorem chainSeg_append {s : UniqueIdQueue} (A B : List Nat) (p q : Nat) :
    chainSeg s p (A ++ B) q ↔
      chainSeg s p A (B.headD q) ∧ chainSeg s (A.getLastD p) B q := by
  induction A generalizing p with
  | nil => simp
  | cons a A ih =>
    simp only [List.cons_append, chainSeg_cons, ih a, List.getLastD_cons,
      headD_append]
    tauto

theorem next_mem_of_chainSeg {s : UniqueIdQueue} {L : List Nat} {p q : Nat}
    (h : chainSeg s p L q) :
    ∀ i ∈ L, (s.getNode i).next ∈ L ∨ (s.getNode i).next = q := by
  induction L generalizing p with
  | nil => simp
  | cons a rest ih =>
    obtain ⟨_, h2, h3⟩ := h
    intro i hi
    rcases List.mem_cons.1 hi with rfl | hi
    · cases rest with
      | nil => right; simpa using h2
      | cons b _ => left; rw [h2]; simp
    · rcases ih h3 i hi with hmem | heq
      · left; simp [hmem]
      · right; exact heq

theorem prev_mem_of_chainSeg {s : UniqueIdQueue} {L : List Nat} {p q : Nat}
    (h : chainSeg s p L q) :
    ∀ i ∈ L, (s.getNode i).prev ∈ L ∨ (s.getNode i).prev = p := by
  induction L generalizing p with
  | nil => simp
  | cons a rest ih =>
    obtain ⟨h1, _, h3⟩ := h
    intro i hi
    rcases List.mem_cons.1 hi with rfl | hi
    · right; exact h1
    · rcases ih h3 i hi with hmem | heq
      · left; simp [hmem]
      · left; rw [heq]; simp

theorem mk'_listInv (Cap cap : Nat) (h1 : cap ≤ Cap) (h2 : cap < kNil) :
    listInv (mk' Cap cap) [] where
  cap_le := by simpa [mk'] using h1
  cap_lt := h2
  nodup := List.nodup_nil
  mem_lt := by simp
  size_eq := rfl
  head_eq := rfl
  tail_eq := rfl
  chain := trivial
  free_eq := fun i _ _ => getNode_mk' Cap cap i
  data_eq := by simp

theorem push_eq_ok_empty {s : UniqueIdQueue} {c : Item}
    (hful : s.full = false) (hid : s.IdValid c.id = true)
    (hocc : (s.getNode c.id).occupied = false) (hlen : c.id < s.data_.length)
    (htail : s.tail_ = kNil) :
    s.push c = (Status.Ok,
      { s with data_ := s.data_.set c.id ⟨kNil, kNil, some c⟩,
               head_ := c.id, tail_ := c.id, size_ := s.size_ + 1 }) := by
  simp only [push, hful, hid, hocc, Bool.false_eq_true, if_false, not_true,
    Bool.true_eq_false, if_true, not_false_iff, link]
  rw [getNode_setNode_same _ hlen]
  simp only [setNode_tail, htail, ne_eq, not_true_eq_false, if_false,
    Node.dataId]
  simp [setNode, List.set_set]

theorem push_eq_ok_tail {s : UniqueIdQueue} {c : Item}
    (hful : s.full = false) (hid : s.IdValid c.id = true)
    (hocc : (s.getNode c.id).occupied = false) (hlen : c.id < s.data_.length)
    (htail : s.tail_ ≠ kNil) (hne : s.tail_ ≠ c.id) :
    s.push c = (Status.Ok,
      { s with data_ := (s.data_.set c.id ⟨s.tail_, kNil, some c⟩).set s.tail_
                  { s.getNode s.tail_ with next := c.id },
               tail_ := c.id, size_ := s.size_ + 1 }) := by
  simp only [push, hful, hid, hocc, Bool.false_eq_true, if_false, not_true,
    Bool.true_eq_false, if_true, not_false_iff, link]
  rw [getNode_setNode_same _ hlen]
  simp only [setNode_tail, ne_eq, htail, not_false_iff, if_true, Node.dataId]
  rw [getNode_setNode_ne _ (Ne.symm hne), getNode_setNode_ne _ (Ne.symm hne)]
  simp [setNode, List.set_set]

@[simp]
theorem getNode_with_head (s : UniqueIdQueue) (x i : Nat) :
    getNode { s with head_ := x } i = s.getNode i := rfl

@[simp]
theorem getNode_with_tail (s : UniqueIdQueue) (x i : Nat) :
    getNode { s with tail_ := x } i = s.getNode i := rfl

theorem unlink_eq_nil_nil {s : UniqueIdQueue} {i : Nat}
    (hp : (s.getNode i).prev = kNil) (hn : (s.getNode i).next = kNil) :
    s.unlink i =
      { s with head_ := kNil, tail_ := kNil,
               data_ := s.data_.set i Node.free } := by
  simp only [unlink]
  rw [if_neg (by simp [hp] : ¬ (s.getNode i).prev ≠ kNil)]
  simp only [getNode_with_head]
  rw [if_neg (by simp [hn] : ¬ (s.getNode i).next ≠ kNil)]
  simp [setNode, Node.free, hp, hn]

theorem unlink_eq_nil_next {s : UniqueIdQueue} {i : Nat}
    (hp : (s.getNode i).prev = kNil) (hn : (s.getNode i).next ≠ kNil) :
    s.unlink i =
      { s with
        head_ := (s.getNode i).next,
        data_ :=
          (s.data_.set (s.getNode i).next
              { s.getNode (s.getNode i).next with prev := kNil }).set i
            Node.free } := by
  simp only [unlink]
  rw [if_neg (by simp [hp] : ¬ (s.getNode i).prev ≠ kNil)]
  simp only [getNode_with_head]
  rw [if_pos hn]
  simp [setNode, Node.free, hp]

theorem unlink_eq_prev_nil {s : UniqueIdQueue} {i : Nat}
    (hp : (s.getNode i).prev ≠ kNil) (hn : (s.getNode i).next = kNil)
    (hpi : (s.getNode i).prev ≠ i) :
    s.unlink i =
      { s with
        tail_ := (s.getNode i).prev,
        data_ :=
          (s.data_.set (s.getNode i).prev
              { s.getNode (s.getNode i).prev with
                  next := (s.getNode i).next }).set i Node.free } := by
  simp only [unlink]
  rw [if_pos hp]
  rw [getNode_setNode_ne _ hpi]
  rw [if_neg (by simp [hn] : ¬ (s.getNode i).next ≠ kNil)]
  simp [setNode, Node.free]

theorem unlink_eq_prev_next {s : UniqueIdQueue} {i : Nat}
    (hp : (s.getNode i).prev ≠ kNil) (hn : (s.getNode i).next ≠ kNil)
    (hpi : (s.getNode i).prev ≠ i)
    (hpn : (s.getNode i).prev ≠ (s.getNode i).next) :
    s.unlink i =
      { s with
        data_ :=
          ((s.data_.set (s.getNode i).prev
                { s.getNode (s.getNode i).prev with
                    next := (s.getNode i).next }).set (s.getNode i).next
              { s.getNode (s.getNode i).next with
                  prev := (s.getNode i).prev }).set i Node.free } := by
  simp only [unlink]
  rw [if_pos hp]
  rw [getNode_setNode_ne _ hpi]
  rw [if_pos hn]
  rw [getNode_setNode_ne _ hpn]
  simp [setNode, Node.free]

theorem getD_set_self (l : List Node) (i : Nat) (n : Node)
    (h : i < l.length) : (l.set i n).getD i Node.free = n := by
  simp [List.getD_eq_getElem?_getD, List.getElem?_set_self h]

theorem getD_set_ne (l : List Node) {i j : Nat} (n : Node) (h : i ≠ j) :
    (l.set i n).getD j Node.free = l.getD j Node.free := by
  simp [List.getD_eq_getElem?_getD, List.getElem?_set_ne h]

theorem headD_append_left {α : Type _} {A : List α} (B : List α) (q : α)
    (h : A ≠ []) : (A ++ B).headD q = A.headD q := by
  cases A with
  | nil => exact absurd rfl h
  | cons a l => simp

theorem not_mem_of_concat_nodup {L0 : List Nat} {t : Nat}
    (h : (L0 ++ [t]).Nodup) : t ∉ L0 := by
  rcases List.nodup_append.mp h with ⟨_, _, hdis⟩
  intro hmem
  exact hdis hmem (by simp)

theorem push_ok_spec {s : UniqueIdQueue} {L : List Nat} {c : Item}
    (h : listInv s L) (hful : s.full = false) (hid : s.IdValid c.id = true)
    (hocc : (s.getNode c.id).occupied = false) :
    (s.push c).1 = Status.Ok ∧
      listInv (s.push c).2 (L ++ [c.id]) ∧
      ((s.push c).2.getNode c.id).data = some c ∧
      ∀ j ∈ L, ((s.push c).2.getNode j).data = (s.getNode j).data := by
  have hlt : c.id < s.capacity_ := by simpa [IdValid] using hid
  have hlen : c.id < s.data_.length := lt_of_lt_of_le hlt h.cap_le
  have hmem : c.id ∉ L := by
    intro hm
    obtain ⟨d, hd, _⟩ := h.data_eq _ hm
    simp [Node.occupied, hd] at hocc
  rcases List.eq_nil_or_concat L with rfl | ⟨L0, t, rfl⟩
  · -- the store was empty: the new node becomes both head and tail
    have htail : s.tail_ = kNil := h.tail_eq
    have hsz : s.size_ = 0 := h.size_eq
    rw [push_eq_ok_empty hful hid hocc hlen htail]
    refine ⟨rfl, ?_, ?_, ?_⟩
    · refine ⟨?_, h.cap_lt, ?_, ?_, ?_, ?_, ?_, ?_, ?_, ?_⟩
      · simpa using h.cap_le
      · simp
      · simpa using hlt
      · simp [hsz]
      · rfl
      · rfl
      · refine ⟨?_, ?_, trivial⟩
        · show ((s.data_.set c.id ⟨kNil, kNil, some c⟩).getD c.id Node.free).prev = kNil
          rw [getD_set_self _ _ _ hlen]
        · show ((s.data_.set c.id ⟨kNil, kNil, some c⟩).getD c.id Node.free).next = _
          rw [getD_set_self _ _ _ hlen]
          rfl
      · intro j hj hj2
        have hne : c.id ≠ j := fun e => hj2 (by simp [e])
        show (s.data_.set c.id _).getD j Node.free = Node.free
        rw [getD_set_ne _ _ hne]
        exact h.free_eq j (by simpa using hj) (by simp)
      · intro j hj
        have : j = c.id := by simpa using hj
        subst this
        refine ⟨c, ?_, rfl⟩
        show ((s.data_.set c.id ⟨kNil, kNil, some c⟩).getD c.id Node.free).data = some c
        rw [getD_set_self _ _ _ hlen]
    · show ((s.data_.set c.id ⟨kNil, kNil, some c⟩).getD c.id Node.free).data = some c
      rw [getD_set_self _ _ _ hlen]
    · simp
  · -- the store had a tail `t`: the new node is appended after it
    rw [List.concat_eq_append] at *
    have htail : s.tail_ = t := by
      have := h.tail_eq
      rwa [List.getLastD_concat] at this
    have htmem : t ∈ L0 ++ [t] := by simp
    have htlt : t < s.capacity_ := h.mem_lt _ htmem
    have htlen : t < s.data_.length := lt_of_lt_of_le htlt h.cap_le
    have htnil : s.tail_ ≠ kNil := by
      rw [htail]; exact Nat.ne_of_lt (lt_of_lt_of_le htlt (le_of_lt h.cap_lt))
    have htne : s.tail_ ≠ c.id := by
      rw [htail]; intro e; exact hmem (by rw [← e]; exact htmem)
    have htne' : t ≠ c.id := by rwa [htail] at htne
    have htnotL0 : t ∉ L0 := not_mem_of_concat_nodup h.nodup
    have hcne : ∀ j ∈ L0 ++ [t], c.id ≠ j :=
      fun j hj e => hmem (by rw [e]; exact hj)
    rw [push_eq_ok_tail hful hid hocc hlen htnil htne]
    rw [htail]
    refine ⟨rfl, ?_, ?_, ?_⟩
    · refine ⟨?_, h.cap_lt, ?_, ?_, ?_, ?_, ?_, ?_, ?_, ?_⟩
      · simpa using h.cap_le
      · refine List.Nodup.append h.nodup (by simp) ?_
        intro a ha hb
        have : a = c.id := by simpa using hb
        subst this
        exact hmem ha
      · intro j hj
        rcases List.mem_append.mp hj with hj | hj
        · exact h.mem_lt _ hj
        · have : j = c.id := by simpa using hj
          subst this; exact hlt
      · simp [h.size_eq]
      · show s.head_ = _
        rw [h.head_eq, headD_append_left [c.id] kNil (by simp)]
      · show c.id = _
        rw [List.getLastD_concat]
      · -- the chain gains a final node `c.id` after `t`
        have hchain := h.chain
        rw [chainSeg_append] at hchain
        obtain ⟨hch0, hcht⟩ := hchain
        simp only [List.headD_cons] at hch0
        obtain ⟨hpt, hnt, -⟩ := hcht
        rw [chainSeg_append, List.getLastD_concat]
        simp only [List.headD_cons]
        constructor
        · rw [chainSeg_append]
          simp only [List.headD_cons]
          constructor
          · refine chainSeg_congr ?_ hch0
            intro j hj
            show (_ : List Node).getD j Node.free = s.getNode j
            rw [getD_set_ne _ _ (fun e => htnotL0 (by rw [e]; exact hj)),
              getD_set_ne _ _ (hcne j (List.mem_append_left _ hj))]
            rfl
          · refine ⟨?_, ?_, trivial⟩
            · show ((_ : List Node).getD t Node.free).prev = _
              rw [getD_set_self _ _ _ (by simpa using htlen)]
              exact hpt
            · show ((_ : List Node).getD t Node.free).next = _
              rw [getD_set_self _ _ _ (by simpa using htlen)]
              rfl
        · refine ⟨?_, ?_, trivial⟩
          · show ((_ : List Node).getD c.id Node.free).prev = t
            rw [getD_set_ne _ _ htne', getD_set_self _ _ _ hlen]
          · show ((_ : List Node).getD c.id Node.free).next = _
            rw [getD_set_ne _ _ htne', getD_set_self _ _ _ hlen]
            rfl
      · intro j hj hj2
        have hj2a : j ∉ L0 ++ [t] :=
          fun e => hj2 (List.mem_append_left _ e)
        have hjc : c.id ≠ j := fun e => hj2 (by simp [e])
        have hjt : t ≠ j := fun e => hj2a (by rw [← e]; exact htmem)
        show (_ : List Node).getD j Node.free = Node.free
        rw [getD_set_ne _ _ hjt, getD_set_ne _ _ hjc]
        exact h.free_eq j (by simpa using hj) hj2a
      · intro j hj
        rcases List.mem_append.mp hj with hj | hj
        · rcases List.mem_append.mp hj with hj | hj
          · obtain ⟨d, hd, hd2⟩ := h.data_eq j (List.mem_append_left _ hj)
            refine ⟨d, ?_, hd2⟩
            show ((_ : List Node).getD j Node.free).data = some d
            rw [getD_set_ne _ _ (fun e => htnotL0 (by rw [e]; exact hj)),
              getD_set_ne _ _ (hcne j (List.mem_append_left _ hj))]
            exact hd
          · have : j = t := by simpa using hj
            subst this
            obtain ⟨d, hd, hd2⟩ := h.data_eq j htmem
            refine ⟨d, ?_, hd2⟩
            show ((_ : List Node).getD j Node.free).data = some d
            rw [getD_set_self _ _ _ (by simpa using htlen)]
            exact hd
        · have : j = c.id := by simpa using hj
          subst this
          refine ⟨c, ?_, rfl⟩
          show ((_ : List Node).getD c.id Node.free).data = some c
          rw [getD_set_ne _ _ htne', getD_set_self _ _ _ hlen]
    · show ((_ : List Node).getD c.id Node.free).data = some c
      rw [getD_set_ne _ _ htne', getD_set_self _ _ _ hlen]
    · intro j hj
      rcases List.mem_append.mp hj with hj | hj
      · show ((_ : List Node).getD j Node.free).data = (s.getNode j).data
        rw [getD_set_ne _ _ (fun e => htnotL0 (by rw [e]; exact hj)),
          getD_set_ne _ _ (hcne j (List.mem_append_left _ hj))]
        rfl
      · have : j = t := by simpa using hj
        subst this
        show ((_ : List Node).getD j Node.free).data = (s.getNode j).data
        rw [getD_set_self _ _ _ (by simpa using htlen)]

theorem chain_split {s : UniqueIdQueue} {A B : List Nat} {i : Nat}
    (h : listInv s (A ++ i :: B)) :
    chainSeg s kNil A i ∧ (s.getNode i).prev = A.getLastD kNil ∧
      (s.getNode i).next = B.headD kNil ∧ chainSeg s i B kNil := by
  have hc := h.chain
  rw [chainSeg_append] at hc
  obtain ⟨h1, h2⟩ := hc
  simp only [List.headD_cons] at h1
  obtain ⟨hp, hn, hB⟩ := h2
  exact ⟨h1, hp, hn, hB⟩

theorem unlink_spec {s : UniqueIdQueue} {A B : List Nat} {i : Nat}
    (h : listInv s (A ++ i :: B)) :
    listInv { s.unlink i with size_ := (s.unlink i).size_ - 1 } (A ++ B) ∧
      ∀ j ∈ A ++ B, ((s.unlink i).getNode j).data = (s.getNode j).data := by
  obtain ⟨hchA, hpi, hni, hchB⟩ := chain_split h
  have hnd := h.nodup
  rcases List.nodup_append.mp hnd with ⟨hndA, hndiB, hdisj⟩
  rcases List.nodup_cons.mp hndiB with ⟨hiB, hndB⟩
  have hiA : i ∉ A := fun e => hdisj e (by simp)
  have himem : i ∈ A ++ i :: B := by simp
  have hilt : i < s.capacity_ := h.mem_lt _ himem
  have hilen : i < s.data_.length := lt_of_lt_of_le hilt h.cap_le
  have hABd : ∀ x ∈ A, x ∉ B := fun x hx hb => hdisj hx (by simp [hb])
  have hcap16 := h.cap_lt
  rcases List.eq_nil_or_concat A with rfl | ⟨A0, a, rfl⟩
  · -- removing the head of the chain
    have hp : (s.getNode i).prev = kNil := by simpa using hpi
    cases B with
    | nil =>
      -- the chain was the single node `i`
      have hn : (s.getNode i).next = kNil := by simpa using hni
      rw [unlink_eq_nil_nil hp hn]
      constructor
      · refine ⟨by simpa using h.cap_le, h.cap_lt, by simp, by simp, ?_, rfl,
          rfl, trivial, ?_, by simp⟩
        · have := h.size_eq
          simp only [List.nil_append, List.length_cons, List.length_nil] at this
          simp [this]
        · intro j hj hj2
          by_cases hij : i = j
          · subst hij
            show (s.data_.set i Node.free).getD i Node.free = Node.free
            rw [getD_set_self _ _ _ hilen]
          · show (s.data_.set i Node.free).getD j Node.free = Node.free
            rw [getD_set_ne _ _ hij]
            exact h.free_eq j (by simpa using hj) (by simp [Ne.symm hij])
      · intro j hj
        simp at hj
    | cons b B0 =>
      -- the head `i` has a successor `b`, which becomes the new head
      have hbmem : b ∈ [] ++ i :: b :: B0 := by simp
      have hblt : b < s.capacity_ := h.mem_lt _ hbmem
      have hblen : b < s.data_.length := lt_of_lt_of_le hblt h.cap_le
      have hbknil : b ≠ kNil := Nat.ne_of_lt (lt_trans hblt h.cap_lt)
      have hn : (s.getNode i).next = b := by simpa using hni
      have hnknil : (s.getNode i).next ≠ kNil := by rw [hn]; exact hbknil
      have hbi : b ≠ i := fun e => hiB (by rw [← e]; simp)
      have hib : i ≠ b := Ne.symm hbi
      have hbB0 : b ∉ B0 := (List.nodup_cons.mp hndB).1
      have hiB0 : i ∉ B0 := fun e => hiB (by simp [e])
      obtain ⟨hpb, hnb, hchB0⟩ := hchB
      rw [unlink_eq_nil_next hp hnknil, hn]
      constructor
      · refine ⟨by simpa using h.cap_le, h.cap_lt, by simpa using hndB, ?_,
          ?_, rfl, ?_, ?_, ?_, ?_⟩
        · intro j hj
          exact h.mem_lt j (by simpa using List.mem_cons_of_mem i hj)
        · have := h.size_eq
          simp only [List.nil_append, List.length_cons] at this
          simp [this]
        · show s.tail_ = _
          rw [h.tail_eq]
          simp [List.getLastD_cons]
        · refine ⟨?_, ?_, ?_⟩
          · show (((s.data_.set b _).set i Node.free).getD b Node.free).prev = kNil
            rw [getD_set_ne _ _ hib, getD_set_self _ _ _ (by simpa using hblen)]
          · show (((s.data_.set b _).set i Node.free).getD b Node.free).next = _
            rw [getD_set_ne _ _ hib, getD_set_self _ _ _ (by simpa using hblen)]
            exact hnb
          · refine chainSeg_congr ?_ hchB0
            intro j hj
            show ((s.data_.set b _).set i Node.free).getD j Node.free = s.getNode j
            rw [getD_set_ne _ _ (fun e => hiB0 (by rw [e]; exact hj)),
              getD_set_ne _ _ (fun e => hbB0 (by rw [e]; exact hj))]
            rfl
        · intro j hj hj2
          by_cases hij : i = j
          · subst hij
            show ((s.data_.set b _).set i Node.free).getD i Node.free = Node.free
            rw [getD_set_self _ _ _ (by simpa using hilen)]
          · have hjb : b ≠ j := fun e => hj2 (by simp [← e])
            show ((s.data_.set b _).set i Node.free).getD j Node.free = Node.free
            rw [getD_set_ne _ _ hij, getD_set_ne _ _ hjb]
            exact h.free_eq j (by simpa using hj)
              (by simp only [List.nil_append, List.mem_cons]
                  push_neg
                  exact ⟨Ne.symm hij, by simpa using hj2⟩)
        · intro j hj
          rcases List.mem_cons.mp (by simpa using hj) with rfl | hj
          · obtain ⟨d, hd, hd2⟩ := h.data_eq j (by simp)
            refine ⟨d, ?_, hd2⟩
            show (((s.data_.set j _).set i Node.free).getD j Node.free).data = _
            rw [getD_set_ne _ _ (Ne.symm hbi), getD_set_self _ _ _ (by simpa using hblen)]
            exact hd
          · obtain ⟨d, hd, hd2⟩ := h.data_eq j (by simp [hj])
            refine ⟨d, ?_, hd2⟩
            show (((s.data_.set b _).set i Node.free).getD j Node.free).data = _
            rw [getD_set_ne _ _ (fun e => hiB0 (by rw [e]; exact hj)),
              getD_set_ne _ _ (fun e => hbB0 (by rw [e]; exact hj))]
            exact hd
      · intro j hj
        rcases List.mem_cons.mp (by simpa using hj) with rfl | hj
        · show (((s.data_.set j _).set i Node.free).getD j Node.free).data = _
          rw [getD_set_ne _ _ (Ne.symm hbi), getD_set_self _ _ _ (by simpa using hblen)]
        · show (((s.data_.set b _).set i Node.free).getD j Node.free).data = _
          rw [getD_set_ne _ _ (fun e => hiB0 (by rw [e]; exact hj)),
            getD_set_ne _ _ (fun e => hbB0 (by rw [e]; exact hj))]
          rfl
  · -- the removed node has a predecessor `a`
    simp only [List.concat_eq_append] at hchA hpi hndA hiA hABd h
    simp only [List.concat_eq_append]
    have hamem : a ∈ (A0 ++ [a]) ++ i :: B := by simp
    have halt : a < s.capacity_ := h.mem_lt _ hamem
    have halen : a < s.data_.length := lt_of_lt_of_le halt h.cap_le
    have haknil : a ≠ kNil := Nat.ne_of_lt (lt_trans halt h.cap_lt)
    have haA : a ∈ A0 ++ [a] := by simp
    have hai : a ≠ i := fun e => hiA (by rw [← e]; exact haA)
    have hpia : (s.getNode i).prev = a := by
      rw [hpi, List.getLastD_concat]
    have hpknil : (s.getNode i).prev ≠ kNil := by rw [hpia]; exact haknil
    have hpii : (s.getNode i).prev ≠ i := by rw [hpia]; exact hai
    have haA0 : a ∉ A0 := not_mem_of_concat_nodup hndA
    have haB : a ∉ B := hABd a haA
    have hchA2 := hchA
    rw [chainSeg_append] at hchA2
    obtain ⟨hchA0, hcha⟩ := hchA2
    simp only [List.headD_cons] at hchA0
    obtain ⟨hpa, hna, -⟩ := hcha
    have hA0i : i ∉ A0 := fun e => hiA (by simp [e])
    have hA0B : ∀ x ∈ A0, x ∉ B := fun x hx => hABd x (by simp [hx])
    cases B with
    | nil =>
      -- removing the tail: `a` becomes the new tail
      have hn : (s.getNode i).next = kNil := by simpa using hni
      rw [unlink_eq_prev_nil hpknil hn hpii, hpia, hn]
      constructor
      · refine ⟨by simpa using h.cap_le, h.cap_lt, by simpa using hndA, ?_,
          ?_, ?_, ?_, ?_, ?_, ?_⟩
        · intro j hj
          exact h.mem_lt j (by simp at hj ⊢; tauto)
        · have := h.size_eq
          simp only [List.length_append, List.length_cons, List.length_nil] at this
          simp [this]
        · show s.head_ = _
          rw [h.head_eq, List.append_nil,
            headD_append_left (i :: []) kNil (by simp)]
        · show a = _
          rw [List.append_nil, List.getLastD_concat]
        · rw [List.append_nil, chainSeg_append]
          constructor
          · refine chainSeg_congr ?_ hchA0
            intro j hj
            show ((s.data_.set a _).set i Node.free).getD j Node.free = s.getNode j
            rw [getD_set_ne _ _ (fun e => hA0i (by rw [e]; exact hj)),
              getD_set_ne _ _ (fun e => haA0 (by rw [e]; exact hj))]
            rfl
          · simp only [List.headD_nil]
            refine ⟨?_, ?_, trivial⟩
            · show (((s.data_.set a _).set i Node.free).getD a Node.free).prev = _
              rw [getD_set_ne _ _ (Ne.symm hai), getD_set_self _ _ _ (by simpa using halen)]
              exact hpa
            · show (((s.data_.set a _).set i Node.free).getD a Node.free).next = _
              rw [getD_set_ne _ _ (Ne.symm hai), getD_set_self _ _ _ (by simpa using halen)]
              rfl
        · intro j hj hj2
          rw [List.append_nil] at hj2
          by_cases hij : i = j
          · subst hij
            show ((s.data_.set a _).set i Node.free).getD i Node.free = Node.free
            rw [getD_set_self _ _ _ (by simpa using hilen)]
          · have hja : a ≠ j := fun e => hj2 (by rw [← e]; exact haA)
            show ((s.data_.set a _).set i Node.free).getD j Node.free = Node.free
            rw [getD_set_ne _ _ hij, getD_set_ne _ _ hja]
            refine h.free_eq j (by simpa using hj) ?_
            intro hjmem
            rcases List.mem_append.mp hjmem with hx | hx
            · exact hj2 hx
            · have hx2 : j = i := by simpa using hx
              exact hij hx2.symm
        · intro j hj
          rw [List.append_nil] at hj
          rcases List.mem_append.mp hj with hj0 | hja
          · obtain ⟨d, hd, hd2⟩ := h.data_eq j (by simp [hj0])
            refine ⟨d, ?_, hd2⟩
            show (((s.data_.set a _).set i Node.free).getD j Node.free).data = _
            rw [getD_set_ne _ _ (fun e => hA0i (by rw [e]; exact hj0)),
              getD_set_ne _ _ (fun e => haA0 (by rw [e]; exact hj0))]
            exact hd
          · have : j = a := by simpa using hja
            subst this
            obtain ⟨d, hd, hd2⟩ := h.data_eq j hamem
            refine ⟨d, ?_, hd2⟩
            show (((s.data_.set j _).set i Node.free).getD j Node.free).data = _
            rw [getD_set_ne _ _ (Ne.symm hai), getD_set_self _ _ _ (by simpa using halen)]
            exact hd
      · intro j hj
        rw [List.append_nil] at hj
        rcases List.mem_append.mp hj with hj0 | hja
        · show (((s.data_.set a _).set i Node.free).getD j Node.free).data = _
          rw [getD_set_ne _ _ (fun e => hA0i (by rw [e]; exact hj0)),
            getD_set_ne _ _ (fun e => haA0 (by rw [e]; exact hj0))]
          rfl
        · have : j = a := by simpa using hja
          subst this
          show (((s.data_.set j _).set i Node.free).getD j Node.free).data = _
          rw [getD_set_ne _ _ (Ne.symm hai), getD_set_self _ _ _ (by simpa using halen)]
    | cons b B0 =>
      -- removing an interior node: `a` and `b` are spliced together
      have hbmem : b ∈ (A0 ++ [a]) ++ i :: b :: B0 := by simp
      have hblt : b < s.capacity_ := h.mem_lt _ hbmem
      have hblen : b < s.data_.length := lt_of_lt_of_le hblt h.cap_le
      have hbknil : b ≠ kNil := Nat.ne_of_lt (lt_trans hblt h.cap_lt)
      have hn : (s.getNode i).next = b := by simpa using hni
      have hnknil : (s.getNode i).next ≠ kNil := by rw [hn]; exact hbknil
      have hbi : b ≠ i := fun e => hiB (by rw [← e]; simp)
      have hib : i ≠ b := Ne.symm hbi
      have hab : a ≠ b := fun e => haB (by rw [e]; simp)
      have hpn : (s.getNode i).prev ≠ (s.getNode i).next := by
        rw [hpia, hn]; exact hab
      have hbB0 : b ∉ B0 := (List.nodup_cons.mp hndB).1
      have hiB0 : i ∉ B0 := fun e => hiB (by simp [e])
      have haB0 : a ∉ B0 := fun e => haB (by simp [e])
      have hA0b : b ∉ A0 := fun e => hA0B b e (by simp)
      obtain ⟨hpb, hnb, hchB0⟩ := hchB
      rw [unlink_eq_prev_next hpknil hnknil hpii hpn, hpia, hn]
      constructor
      · refine ⟨by simpa using h.cap_le, h.cap_lt, ?_, ?_, ?_, ?_, ?_, ?_, ?_, ?_⟩
        · refine List.Nodup.append hndA (by simpa using hndB) ?_
          intro x hx hxB
          rcases List.mem_append.mp hx with hx0 | hxa
          · rcases List.mem_cons.mp hxB with rfl | hx2
            · exact hA0b hx0
            · exact hA0B x (by simp [hx0]) (by simp [hx2])
          · have : x = a := by simpa using hxa
            subst this
            exact haB hxB
        · intro j hj
          refine h.mem_lt j ?_
          rcases List.mem_append.mp hj with hx | hx
          · exact List.mem_append_left _ hx
          · exact List.mem_append_right _ (by simp [hx])
        · have := h.size_eq
          simp only [List.length_append, List.length_cons] at this
          simp only [List.length_append, List.length_cons]
          simp [this]
        · show s.head_ = _
          rw [h.head_eq, headD_append_left (i :: b :: B0) kNil (by simp),
            headD_append_left (b :: B0) kNil (by simp)]
        · show s.tail_ = _
          rw [h.tail_eq]
          simp [List.getLastD_cons]
        · rw [chainSeg_append]
          constructor
          · rw [chainSeg_append]
            constructor
            · refine chainSeg_congr ?_ hchA0
              intro j hj
              show (((s.data_.set a _).set b _).set i Node.free).getD j
                  Node.free = s.getNode j
              rw [getD_set_ne _ _ (fun e => hA0i (by rw [e]; exact hj)),
                getD_set_ne _ _ (fun e => hA0b (by rw [e]; exact hj)),
                getD_set_ne _ _ (fun e => haA0 (by rw [e]; exact hj))]
              rfl
            · refine ⟨?_, ?_, trivial⟩
              · show ((((s.data_.set a _).set b _).set i Node.free).getD a
                    Node.free).prev = _
                rw [getD_set_ne _ _ (Ne.symm hai),
                  getD_set_ne _ _ (Ne.symm hab),
                  getD_set_self _ _ _ (by simpa using halen)]
                exact hpa
              · show ((((s.data_.set a _).set b _).set i Node.free).getD a
                    Node.free).next = _
                rw [getD_set_ne _ _ (Ne.symm hai),
                  getD_set_ne _ _ (Ne.symm hab),
                  getD_set_self _ _ _ (by simpa using halen)]
                rfl
          · rw [List.getLastD_concat]
            refine ⟨?_, ?_, ?_⟩
            · show ((((s.data_.set a _).set b _).set i Node.free).getD b
                  Node.free).prev = _
              rw [getD_set_ne _ _ hib,
                getD_set_self _ _ _ (by simpa using hblen)]
            · show ((((s.data_.set a _).set b _).set i Node.free).getD b
                  Node.free).next = _
              rw [getD_set_ne _ _ hib,
                getD_set_self _ _ _ (by simpa using hblen)]
              exact hnb
            · refine chainSeg_congr ?_ hchB0
              intro j hj
              show (((s.data_.set a _).set b _).set i Node.free).getD j
                  Node.free = s.getNode j
              rw [getD_set_ne _ _ (fun e => hiB0 (by rw [e]; exact hj)),
                getD_set_ne _ _ (fun e => hbB0 (by rw [e]; exact hj)),
                getD_set_ne _ _ (fun e => haB0 (by rw [e]; exact hj))]
              rfl
        · intro j hj hj2
          by_cases hij : i = j
          · subst hij
            show ((_ : List Node).set i Node.free).getD i Node.free = Node.free
            rw [getD_set_self _ _ _ (by simpa using hilen)]
          · have hja : a ≠ j := fun e => hj2 (by rw [← e]; exact List.mem_append_left _ haA)
            have hjb : b ≠ j := fun e => hj2 (by rw [← e]; simp)
            show (((s.data_.set a _).set b _).set i Node.free).getD j Node.free
                = Node.free
            rw [getD_set_ne _ _ hij, getD_set_ne _ _ hjb, getD_set_ne _ _ hja]
            refine h.free_eq j (by simpa using hj) ?_
            intro hjmem
            rcases List.mem_append.mp hjmem with hx | hx
            · exact hj2 (List.mem_append_left _ hx)
            · rcases List.mem_cons.mp hx with e | hx2
              · exact hij e.symm
              · exact hj2 (List.mem_append_right _ hx2)
        · intro j hj
          have hjmem : j ∈ (A0 ++ [a]) ++ i :: b :: B0 := by
            rcases List.mem_append.mp hj with hx | hx
            · exact List.mem_append_left _ hx
            · exact List.mem_append_right _ (by simp [hx])
          obtain ⟨d, hd, hd2⟩ := h.data_eq j hjmem
          refine ⟨d, ?_, hd2⟩
          by_cases hja : j = a
          · subst hja
            show ((((s.data_.set j _).set b _).set i Node.free).getD j
                Node.free).data = _
            rw [getD_set_ne _ _ (Ne.symm hai), getD_set_ne _ _ (Ne.symm hab),
              getD_set_self _ _ _ (by simpa using halen)]
            exact hd
          · by_cases hjb : j = b
            · subst hjb
              show ((((s.data_.set a _).set j _).set i Node.free).getD j
                  Node.free).data = _
              rw [getD_set_ne _ _ hib,
                getD_set_self _ _ _ (by simpa using hblen)]
              exact hd
            · have hji : i ≠ j := by
                intro e
                subst e
                rcases List.mem_append.mp hj with hx | hx
                · exact hiA hx
                · exact hiB (by simpa using hx)
              show ((((s.data_.set a _).set b _).set i Node.free).getD j
                  Node.free).data = _
              rw [getD_set_ne _ _ hji, getD_set_ne _ _ (Ne.symm hjb),
                getD_set_ne _ _ (Ne.symm hja)]
              exact hd
      · intro j hj
        by_cases hja : j = a
        · subst hja
          show ((((s.data_.set j _).set b _).set i Node.free).getD j
              Node.free).data = _
          rw [getD_set_ne _ _ (Ne.symm hai), getD_set_ne _ _ (Ne.symm hab),
            getD_set_self _ _ _ (by simpa using halen)]
        · by_cases hjb : j = b
          · subst hjb
            show ((((s.data_.set a _).set j _).set i Node.free).getD j
                Node.free).data = _
            rw [getD_set_ne _ _ hib,
              getD_set_self _ _ _ (by simpa using hblen)]
          · have hji : i ≠ j := by
              intro e
              subst e
              rcases List.mem_append.mp hj with hx | hx
              · exact hiA hx
              · exact hiB (by simpa using hx)
            show ((((s.data_.set a _).set b _).set i Node.free).getD j
                Node.free).data = _
            rw [getD_set_ne _ _ hji, getD_set_ne _ _ (Ne.symm hjb),
              getD_set_ne _ _ (Ne.symm hja)]
            rfl

theorem occupied_mem {s : UniqueIdQueue} {L : List Nat} {i : Nat}
    (h : listInv s L) (hocc : (s.getNode i).occupied = true) : i ∈ L := by
  by_contra hmem
  by_cases hlen : i < s.data_.length
  · rw [h.free_eq i hlen hmem] at hocc
    simp [Node.occupied, Node.free] at hocc
  · have he : s.getNode i = Node.free := by
      simp only [getNode]
      exact List.getD_eq_default _ _ (le_of_not_lt hlen)
    rw [he] at hocc
    simp [Node.occupied, Node.free] at hocc

theorem mem_occupied {s : UniqueIdQueue} {L : List Nat} {i : Nat}
    (h : listInv s L) (hmem : i ∈ L) : (s.getNode i).occupied = true := by
  obtain ⟨d, hd, _⟩ := h.data_eq i hmem
  simp [Node.occupied, hd]

theorem push_err {s : UniqueIdQueue} {c : Item}
    (h : (s.push c).1 ≠ Status.Ok) : (s.push c).2 = s := by
  by_cases h1 : s.full
  · simp [push, h1]
  · by_cases h2 : s.IdValid c.id
    · by_cases h3 : (s.getNode c.id).occupied
      · simp [push, h1, h2, h3]
      · exact absurd (by simp [push, h1, h2, h3]) h
    · simp [push, h1, h2]

theorem push_ok_iff {s : UniqueIdQueue} {c : Item} :
    (s.push c).1 = Status.Ok ↔
      s.full = false ∧ s.IdValid c.id = true ∧
        (s.getNode c.id).occupied = false := by
  by_cases h1 : s.full
  · simp [push, h1]
  · by_cases h2 : s.IdValid c.id
    · by_cases h3 : (s.getNode c.id).occupied
      · simp [push, h1, h2, h3]
      · simp [push, h1, h2, h3]
    · simp [push, h1, h2]

theorem pop_err {s : UniqueIdQueue} {out : Option Item}
    (h : (s.pop out).1 ≠ Status.Ok) : (s.pop out).2.1 = s ∧
      (s.pop out).2.2 = out := by
  by_cases h1 : s.isEmpty
  · simp [pop, h1]
  · exact absurd (by simp [pop, h1]) h

theorem pop_ok_iff {s : UniqueIdQueue} {out : Option Item} :
    (s.pop out).1 = Status.Ok ↔ s.isEmpty = false := by
  by_cases h1 : s.isEmpty
  · simp [pop, h1]
  · simp [pop, h1]

theorem removeId_err {s : UniqueIdQueue} {id : Nat}
    (h : (s.removeId id).1 ≠ Status.Ok) : (s.removeId id).2 = s := by
  by_cases h1 : s.IdValid id
  · by_cases h2 : (s.getNode id).occupied
    · exact absurd (by simp [removeId, h1, h2]) h
    · simp [removeId, h1, h2]
  · simp [removeId, h1]

theorem removeId_ok_iff {s : UniqueIdQueue} {id : Nat} :
    (s.removeId id).1 = Status.Ok ↔
      s.IdValid id = true ∧ (s.getNode id).occupied = true := by
  by_cases h1 : s.IdValid id
  · by_cases h2 : (s.getNode id).occupied
    · simp [removeId, h1, h2]
    · simp [removeId, h1, h2]
  · simp [removeId, h1]

theorem removeItem_err {s : UniqueIdQueue} {c : Item}
    (h : (s.removeItem c).1 ≠ Status.Ok) : (s.removeItem c).2 = s := by
  by_cases h1 : s.isEmpty
  · simp [removeItem, h1]
  · have h2 : (s.removeItem c).1 = (s.removeId c.id).1 := by
      simp [removeItem, h1]
    have h3 : (s.removeItem c).2 = (s.removeId c.id).2 := by
      simp [removeItem, h1]
    rw [h3]
    exact removeId_err (h2 ▸ h)

theorem pop_ok_spec {s : UniqueIdQueue} {i : Nat} {B : List Nat}
    (out : Option Item) (h : listInv s (i :: B)) :
    (s.pop out).1 = Status.Ok ∧
      (s.pop out).2.2 = (s.getNode i).data ∧
      listInv (s.pop out).2.1 B ∧
      ∀ j ∈ B, ((s.pop out).2.1.getNode j).data = (s.getNode j).data := by
  have hne : s.isEmpty = false := by
    simp [isEmpty, h.size_eq]
  have hhead : s.head_ = i := by simpa using h.head_eq
  have husp := unlink_spec (A := []) (B := B) (i := i) (by simpa using h)
  simp only [List.nil_append] at husp
  obtain ⟨hinv, hdata⟩ := husp
  refine ⟨by simp [pop, hne], by simp [pop, hne, hhead], ?_, ?_⟩
  · simp only [pop, hne, Bool.false_eq_true, if_false, hhead]
    exact hinv
  · intro j hj
    simp only [pop, hne, Bool.false_eq_true, if_false, hhead]
    exact hdata j hj

theorem removeId_ok_spec {s : UniqueIdQueue} {A B : List Nat} {i : Nat}
    (h : listInv s (A ++ i :: B)) :
    (s.removeId i).1 = Status.Ok ∧
      listInv (s.removeId i).2 (A ++ B) ∧
      ∀ j ∈ A ++ B, ((s.removeId i).2.getNode j).data = (s.getNode j).data := by
  have hmem : i ∈ A ++ i :: B := by simp
  have hval : s.IdValid i = true := by
    simpa [IdValid] using h.mem_lt i hmem
  have hocc : (s.getNode i).occupied = true := mem_occupied h hmem
  obtain ⟨hinv, hdata⟩ := unlink_spec h
  refine ⟨by simp [removeId, hval, hocc], ?_, ?_⟩
  · simp only [removeId, hval, hocc, not_true, Bool.true_eq_false,
      if_false, not_false_iff, if_neg]
    exact hinv
  · intro j hj
    simp only [removeId, hval, hocc, not_true, Bool.true_eq_false,
      if_false, not_false_iff, if_neg]
    exact hdata j hj

theorem applyOp_inv {s : UniqueIdQueue} {op : Op} (h : Inv s) :
    Inv (applyOp s op) := by
  obtain ⟨L, hL⟩ := h
  cases op with
  | push c =>
    show Inv (s.push c).2
    by_cases h1 : (s.push c).1 = Status.Ok
    · obtain ⟨hful, hid, hocc⟩ := push_ok_iff.mp h1
      exact ⟨L ++ [c.id], (push_ok_spec hL hful hid hocc).2.1⟩
    · rw [push_err h1]; exact ⟨L, hL⟩
  | pop =>
    show Inv (s.pop none).2.1
    cases L with
    | nil =>
      have hemp : s.isEmpty = true := by simp [isEmpty, hL.size_eq]
      have hne : (s.pop none).1 ≠ Status.Ok := by
        simp [pop, hemp]
      rw [(pop_err hne).1]; exact ⟨[], hL⟩
    | cons i B => exact ⟨B, (pop_ok_spec none hL).2.2.1⟩
  | removeItem c =>
    show Inv (s.removeItem c).2
    by_cases h1 : (s.removeItem c).1 = Status.Ok
    · by_cases h2 : s.isEmpty
      · exact absurd h1 (by simp [removeItem, h2])
      · have heq : (s.removeItem c).2 = (s.removeId c.id).2 := by
          simp [removeItem, h2]
        have heq1 : (s.removeId c.id).1 = Status.Ok := by
          rw [show (s.removeId c.id).1 = (s.removeItem c).1 from by
            simp [removeItem, h2]]
          exact h1
        rw [heq]
        obtain ⟨hval, hocc⟩ := removeId_ok_iff.mp heq1
        obtain ⟨A, B, rfl⟩ := List.append_of_mem (occupied_mem hL hocc)
        exact ⟨A ++ B, (removeId_ok_spec hL).2.1⟩
    · rw [removeItem_err h1]; exact ⟨L, hL⟩
  | removeId id =>
    show Inv (s.removeId id).2
    by_cases h1 : (s.removeId id).1 = Status.Ok
    · obtain ⟨hval, hocc⟩ := removeId_ok_iff.mp h1
      obtain ⟨A, B, rfl⟩ := List.append_of_mem (occupied_mem hL hocc)
      exact ⟨A ++ B, (removeId_ok_spec hL).2.1⟩
    · rw [removeId_err h1]; exact ⟨L, hL⟩

theorem runOps_inv {s : UniqueIdQueue} (h : Inv s) (ops : List Op) :
    Inv (runOps s ops) := by
  induction ops generalizing s with
  | nil => exact h
  | cons op rest ih =>
    show Inv (runOps (applyOp s op) rest)
    exact ih (applyOp_inv h)

theorem pushSeq_spec : ∀ {cs : List Item} {s : UniqueIdQueue} {L : List Nat},
    listInv s L → pushSeqOk s cs = true →
    listInv (s.pushSeq cs) (L ++ cs.map Item.id) ∧
      (∀ j ∈ L, ((s.pushSeq cs).getNode j).data = (s.getNode j).data) ∧
      ∀ c ∈ cs, ((s.pushSeq cs).getNode c.id).data = some c := by
  intro cs
  induction cs with
  | nil =>
    intro s L h _
    exact ⟨by simpa [pushSeq] using h, fun j _ => rfl, by simp⟩
  | cons c rest ih =>
    intro s L h hok
    simp only [pushSeqOk, Bool.and_eq_true, beq_iff_eq] at hok
    obtain ⟨hc, hrest⟩ := hok
    obtain ⟨hful, hid, hocc⟩ := push_ok_iff.mp hc
    obtain ⟨-, hinv, hdat, hpres⟩ := push_ok_spec h hful hid hocc
    have hps : s.pushSeq (c :: rest) = (s.push c).2.pushSeq rest := rfl
    obtain ⟨hinv2, hpres2, hnew2⟩ := ih hinv hrest
    rw [hps]
    refine ⟨?_, ?_, ?_⟩
    · rw [List.map_cons, List.append_cons]
      exact hinv2
    · intro j hj
      rw [hpres2 j (by simp [hj])]
      exact hpres j hj
    · intro d hd
      rcases List.mem_cons.mp hd with rfl | hd
      · rw [hpres2 d.id (by simp)]
        exact hdat
      · exact hnew2 d hd

theorem popAllAux_spec : ∀ {L : List Nat} {s : UniqueIdQueue},
    listInv s L → popAllAux L.length s = L.map s.itemAt := by
  intro L
  induction L with
  | nil => intro s _; simp [popAllAux]
  | cons i B ih =>
    intro s h
    obtain ⟨hst, hout, hinv, hdat⟩ := pop_ok_spec none h
    obtain ⟨d, hd, hd2⟩ := h.data_eq i (by simp)
    have hout2 : (s.pop none).2.2 = some d := by rw [hout, hd]
    have he : s.pop none = (Status.Ok, (s.pop none).2.1, some d) :=
      Prod.ext hst (Prod.ext rfl hout2)
    show popAllAux (B.length + 1) s = (i :: B).map s.itemAt
    rw [popAllAux, he]
    show d :: popAllAux B.length (s.pop none).2.1 = List.map s.itemAt (i :: B)
    have h1 : s.itemAt i = d := by simp [itemAt, hd]
    rw [ih hinv, List.map_cons, h1]
    congr 1
    exact List.map_congr_left fun j hj => by
      simp only [itemAt, hdat j hj]

theorem popAll_spec {s : UniqueIdQueue} {L : List Nat} (h : listInv s L) :
    s.popAll = L.map s.itemAt := by
  rw [popAll, h.size_eq]
  exact popAllAux_spec h

/-- C1: for every sequence of push/pop/remove operations on a store
constructed with runtime capacity at most the template capacity, the
structural invariant holds before and after each operation: `size_`
counts the occupied slots, and the occupied slots form a single
doubly-linked chain from `head_` to `tail_` with mirrored `prev`/`next`
links, no cycles, and no links to free slots. -/
theorem C1_invariant_preserved (Cap cap : Nat) (ops : List Op)
    (h1 : cap ≤ Cap) (h2 : cap < 2 ^ 16) :
    Inv (runOps (mk' Cap cap) ops) :=
  runOps_inv ⟨[], mk'_listInv Cap cap h1 (lt_trans h2 (by norm_num [kNil]))⟩
    ops

theorem C1_invariant_preserved_witness :
    2 ≤ 2 ∧ 2 < 2 ^ 16 ∧
      Inv (runOps (mk' 2 2) [Op.push ⟨0, 0⟩, Op.push ⟨1, 0⟩, Op.pop]) :=
  ⟨by decide, by decide,
    C1_invariant_preserved 2 2 [Op.push ⟨0, 0⟩, Op.push ⟨1, 0⟩, Op.pop]
      (by decide) (by decide)⟩

/-- C2 counterexample: on a full store, push with identity `capacity`
returns `Full`, not `InvalidId` (the fullness check precedes the
identity check), and on an empty store remove-by-item with identity
`capacity` returns `Empty`, not `InvalidId`. -/
theorem C2_counterexample :
    ((((mk' 1 1).push ⟨0, 0⟩).2).push ⟨1, 0⟩).1 = Status.Full ∧
      Status.Full ≠ Status.InvalidId ∧
      ((mk' 1 1).removeItem ⟨1, 0⟩).1 = Status.Empty ∧
      Status.Empty ≠ Status.InvalidId := by
  decide

/-- C2 (amended): an identity equal to `capacity` or `capacity + 1`
yields `InvalidId` on push whenever the store is not full (on a full
store `Full` takes precedence), always on remove-by-identity, and on
remove-by-item whenever the store is not empty (on an empty store
`Empty` takes precedence); likewise for the façade's push when it is
not full. -/
theorem C2_boundary_identity (s : UniqueIdQueue) (t : TimeoutQueue)
    (c d : Item) (hc : c.id = s.capacity_ ∨ c.id = s.capacity_ + 1)
    (hd : d.id = t.capacity_ ∨ d.id = t.capacity_ + 1) :
    (s.full = false → (s.push c).1 = Status.InvalidId) ∧
      (s.removeId c.id).1 = Status.InvalidId ∧
      (s.isEmpty = false → (s.removeItem c).1 = Status.InvalidId) ∧
      (t.fullImpl = false → (t.push d).1 = Status.InvalidId) := by
  have hcv : s.IdValid c.id = false := by
    simp only [IdValid, decide_eq_false_iff_not, not_lt]
    rcases hc with e | e <;> omega
  have hdv : t.IdValid d.id = false := by
    simp only [TimeoutQueue.IdValid, decide_eq_false_iff_not, not_lt]
    rcases hd with e | e <;> omega
  refine ⟨?_, ?_, ?_, ?_⟩
  · intro hful
    simp [push, hful, hcv]
  · simp [removeId, hcv]
  · intro hemp
    simp [removeItem, hemp, removeId, hcv]
  · intro hful
    have h1 : (t.lock).fullImpl = false := hful
    have h2 : (t.lock).IdValid d.id = false := hdv
    simp [TimeoutQueue.push, h1, h2]

theorem C2_boundary_identity_witness :
    ((⟨2, 0⟩ : Item).id = (((mk' 2 2).push ⟨0, 0⟩).2).capacity_ ∨
        (⟨2, 0⟩ : Item).id = (((mk' 2 2).push ⟨0, 0⟩).2).capacity_ + 1) ∧
      (((mk' 2 2).push ⟨0, 0⟩).2).full = false ∧
      ((((mk' 2 2).push ⟨0, 0⟩).2).push ⟨2, 0⟩).1 = Status.InvalidId := by
  refine ⟨by decide, by decide, ?_⟩
  exact (C2_boundary_identity (((mk' 2 2).push ⟨0, 0⟩).2)
    (TimeoutQueue.mk' 2) ⟨2, 0⟩ ⟨2, 0⟩ (by decide) (by decide)).1 (by decide)

/-- C3 counterexample: on an empty store, remove-by-identity does not
return `Empty`: an out-of-range identity yields `InvalidId` and a valid
identity with a free slot yields `NotFound` (the identity overload has
no emptiness check). -/
theorem C3_counterexample :
    (mk' 3 3).isEmpty = true ∧
      ((mk' 3 3).removeId 5).1 ≠ Status.Empty ∧
      ((mk' 3 3).removeId 5).1 = Status.InvalidId ∧
      ((mk' 3 3).removeId 0).1 = Status.NotFound := by
  decide

/-- C3 (amended): remove-by-item on an empty store returns `Empty`;
remove-by-identity performs no emptiness check and returns `InvalidId`
for an out-of-range identity and `NotFound` for a valid identity whose
slot is free, whether or not the store is empty; on a non-empty store,
remove-by-item returns `InvalidId` and `NotFound` under the same
conditions. -/
theorem C3_remove_statuses (s : UniqueIdQueue) (c : Item) (id : Nat) :
    (s.isEmpty = true → (s.removeItem c).1 = Status.Empty) ∧
      (s.IdValid id = false → (s.removeId id).1 = Status.InvalidId) ∧
      (s.IdValid id = true → (s.getNode id).occupied = false →
        (s.removeId id).1 = Status.NotFound) ∧
      (s.isEmpty = false → s.IdValid c.id = false →
        (s.removeItem c).1 = Status.InvalidId) ∧
      (s.isEmpty = false → s.IdValid c.id = true →
        (s.getNode c.id).occupied = false →
        (s.removeItem c).1 = Status.NotFound) := by
  refine ⟨?_, ?_, ?_, ?_, ?_⟩
  · intro hemp; simp [removeItem, hemp]
  · intro hval; simp [removeId, hval]
  · intro hval hocc; simp [removeId, hval, hocc]
  · intro hemp hval; simp [removeItem, hemp, removeId, hval]
  · intro hemp hval hocc; simp [removeItem, hemp, removeId, hval, hocc]

theorem C3_remove_statuses_witness :
    (mk' 3 3).isEmpty = true ∧
      ((mk' 3 3).removeItem ⟨0, 0⟩).1 = Status.Empty :=
  ⟨by decide, (C3_remove_statuses (mk' 3 3) ⟨0, 0⟩ 5).1 (by decide)⟩

/-- C4 (code bug): with the injected wait modelled per its contract
(it re-acquires the lock before returning whether or not the predicate
was satisfied), the façade's `pop` returns `Status::Empty` on an
expired wait *without unlocking*, so it exits with the mutex still
held — contradicting the exclusive-access contract that every exit
path releases the lock.  The other operations do release it on every
path, shown here at the same store. -/
theorem C4_pop_timeout_mutex_leak :
    ((TimeoutQueue.mk' 3).pop none 1000 false).1 = Status.Empty ∧
      ((TimeoutQueue.mk' 3).pop none 1000 false).2.1.mutexLocked = true ∧
      ((TimeoutQueue.mk' 3).push ⟨0, 0⟩).2.mutexLocked = false ∧
      ((TimeoutQueue.mk' 3).front none).2.1.mutexLocked = false ∧
      ((TimeoutQueue.mk' 3).remove ⟨0, 0⟩).2.mutexLocked = false ∧
      ((TimeoutQueue.mk' 3).size).2.mutexLocked = false := by
  decide

/-- C8 counterexample: when the bounded wait expires unsatisfied, the
façade's `pop` returns `Empty`, not the `Timeout` status the claim
names. -/
theorem C8_counterexample :
    ((TimeoutQueue.mk' 3).pop none 1000 false).1 = Status.Empty ∧
      Status.Empty ≠ Status.Timeout := by
  decide

/-- C8 (amended): when the bounded wait expires without the store
becoming non-empty, `pop` returns `Empty`; the `Timeout` status, though
defined in the taxonomy for exactly this situation, is never returned
by `pop`. -/
theorem C8_expired_wait_returns_empty (t : TimeoutQueue)
    (out : Option Item) (tout : Int) (sat : Bool) :
    (t.pop out tout false).1 = Status.Empty ∧
      (t.pop out tout sat).1 ≠ Status.Timeout := by
  constructor
  · simp [TimeoutQueue.pop, TimeoutQueue.semWait]
  · by_cases hw : (sat && !t.emptyImpl) = true
    · simp [TimeoutQueue.pop, TimeoutQueue.semWait, hw]
    · rw [Bool.not_eq_true] at hw
      simp [TimeoutQueue.pop, TimeoutQueue.semWait, hw]

theorem C8_expired_wait_returns_empty_witness :
    ((TimeoutQueue.mk' 1).pop none 5 false).1 = Status.Empty :=
  (C8_expired_wait_returns_empty (TimeoutQueue.mk' 1) none 5 false).1

theorem link_size (s : UniqueIdQueue) (i : Nat) :
    (s.link i).size_ = s.size_ := by
  simp only [link]
  split <;> rfl

theorem unlink_size (s : UniqueIdQueue) (i : Nat) :
    (s.unlink i).size_ = s.size_ := by
  simp only [unlink]
  split <;> split <;> rfl

theorem tq_unlink_size (t : TimeoutQueue) (i : Nat) :
    (t.unlink i).size_ = t.size_ := by
  simp only [TimeoutQueue.unlink]
  split <;> split <;> rfl

theorem push_ok_size {s : UniqueIdQueue} {c : Item}
    (h : (s.push c).1 = Status.Ok) : (s.push c).2.size_ = s.size_ + 1 := by
  obtain ⟨h1, h2, h3⟩ := push_ok_iff.mp h
  simp [push, h1, h2, h3, link_size]

theorem pop_ok_size {s : UniqueIdQueue} {out : Option Item}
    (h : (s.pop out).1 = Status.Ok) : (s.pop out).2.1.size_ = s.size_ - 1 := by
  have hemp := pop_ok_iff.mp h
  simp [pop, hemp, unlink_size]

theorem removeId_ok_size {s : UniqueIdQueue} {id : Nat}
    (h : (s.removeId id).1 = Status.Ok) :
    (s.removeId id).2.size_ = s.size_ - 1 := by
  obtain ⟨h1, h2⟩ := removeId_ok_iff.mp h
  simp [removeId, h1, h2, unlink_size]

/-- C5: every operation is total and atomic-looking: on any error
status the store state is exactly unchanged (for the façade: the slots,
head, tail and count are unchanged), and on `Ok` the size transition of
the full linking/unlinking step has happened. -/
theorem C5_error_leaves_state_unchanged (s : UniqueIdQueue)
    (t : TimeoutQueue) (c d : Item) (id : Nat) (out : Option Item) :
    ((s.push c).1 ≠ Status.Ok → (s.push c).2 = s) ∧
      ((s.push c).1 = Status.Ok → (s.push c).2.size_ = s.size_ + 1) ∧
      ((s.pop out).1 ≠ Status.Ok →
        (s.pop out).2.1 = s ∧ (s.pop out).2.2 = out) ∧
      ((s.pop out).1 = Status.Ok → (s.pop out).2.1.size_ = s.size_ - 1) ∧
      ((s.removeItem c).1 ≠ Status.Ok → (s.removeItem c).2 = s) ∧
      ((s.removeItem c).1 = Status.Ok →
        (s.removeItem c).2.size_ = s.size_ - 1) ∧
      ((s.removeId id).1 ≠ Status.Ok → (s.removeId id).2 = s) ∧
      ((s.removeId id).1 = Status.Ok →
        (s.removeId id).2.size_ = s.size_ - 1) ∧
      ((t.remove d).1 ≠ Status.Ok → (t.remove d).2.tqStore = t.tqStore) ∧
      ((t.remove d).1 = Status.Ok → (t.remove d).2.size_ = t.size_ - 1) ∧
      (t.front out).2.1.tqStore = t.tqStore := by
  refine ⟨push_err, push_ok_size, pop_err, pop_ok_size, removeItem_err,
    ?_, removeId_err, removeId_ok_size, ?_, ?_, ?_⟩
  · intro h
    by_cases hemp : s.isEmpty
    · exact absurd h (by simp [removeItem, hemp])
    · have heq : s.removeItem c = s.removeId c.id := by
        simp [removeItem, hemp]
      rw [heq] at h ⊢
      exact removeId_ok_size h
  · intro h
    by_cases h1 : (t.lock).emptyImpl
    · simp only [TimeoutQueue.remove, h1, if_true]
      rfl
    · by_cases h2 : (t.lock).IdValid d.id
      · by_cases h3 : ((t.lock).getNode d.id).occupied
        · exact absurd (by simp [TimeoutQueue.remove, h1, h2, h3]) h
        · simp only [TimeoutQueue.remove, h1, h2, h3, Bool.false_eq_true,
            Bool.true_eq_false, if_false, if_true, not_true, not_false_iff]
          rfl
      · simp only [TimeoutQueue.remove, h1, h2, Bool.false_eq_true,
          Bool.true_eq_false, if_false, if_true, not_true, not_false_iff]
        rfl
  · intro h
    by_cases h1 : (t.lock).emptyImpl
    · exact absurd h (by simp [TimeoutQueue.remove, h1])
    · by_cases h2 : (t.lock).IdValid d.id
      · by_cases h3 : ((t.lock).getNode d.id).occupied
        · have : (t.remove d).2 =
              ({ (t.lock).unlink d.id with
                  size_ := ((t.lock).unlink d.id).size_ - 1 } :
                TimeoutQueue).unlock := by
            simp [TimeoutQueue.remove, h1, h2, h3]
          rw [this]
          show ((t.lock).unlink d.id).size_ - 1 = t.size_ - 1
          rw [tq_unlink_size]
          rfl
        · exact absurd h (by simp [TimeoutQueue.remove, h1, h2, h3])
      · exact absurd h (by simp [TimeoutQueue.remove, h1, h2])
  · by_cases h1 : (t.lock).emptyImpl
    · simp only [TimeoutQueue.front, h1, if_true]
      rfl
    · simp only [TimeoutQueue.front, h1, Bool.false_eq_true,
        Bool.true_eq_false, if_false, if_true, not_true, not_false_iff]
      rfl

theorem C5_error_leaves_state_unchanged_witness :
    ((mk' 1 0).push ⟨0, 0⟩).1 ≠ Status.Ok ∧
      ((mk' 1 0).push ⟨0, 0⟩).2 = mk' 1 0 :=
  ⟨by decide,
    (C5_error_leaves_state_unchanged (mk' 1 0) (TimeoutQueue.mk' 1)
      ⟨0, 0⟩ ⟨0, 0⟩ 0 none).1 (by decide)⟩

/-- C10: `front` and `pop` assign through the caller-supplied output
pointer only on `Ok`; on every error return (including the façade
`pop`'s failed wait) the output pointer is left unmodified. -/
theorem C10_out_unmodified_on_error (s : UniqueIdQueue)
    (t : TimeoutQueue) (out : Option Item) (tout : Int) (sat : Bool) :
    ((s.front out).1 ≠ Status.Ok → (s.front out).2 = out) ∧
      ((s.pop out).1 ≠ Status.Ok → (s.pop out).2.2 = out) ∧
      ((t.front out).1 ≠ Status.Ok → (t.front out).2.2 = out) ∧
      ((t.pop out tout sat).1 ≠ Status.Ok →
        (t.pop out tout sat).2.2 = out) := by
  refine ⟨?_, fun h => (pop_err h).2, ?_, ?_⟩
  · intro h
    by_cases h1 : s.isEmpty
    · simp [front, h1]
    · exact absurd (by simp [front, h1]) h
  · intro h
    by_cases h1 : (t.lock).emptyImpl
    · simp [TimeoutQueue.front, h1]
    · exact absurd (by simp [TimeoutQueue.front, h1]) h
  · intro h
    by_cases hw : (sat && !t.emptyImpl) = true
    · exact absurd (by simp [TimeoutQueue.pop, TimeoutQueue.semWait, hw]) h
    · rw [Bool.not_eq_true] at hw
      simp [TimeoutQueue.pop, TimeoutQueue.semWait, hw]

theorem C10_out_unmodified_on_error_witness :
    ((mk' 2 2).front (some ⟨7, 7⟩)).1 ≠ Status.Ok ∧
      ((mk' 2 2).front (some ⟨7, 7⟩)).2 = some ⟨7, 7⟩ :=
  ⟨by decide,
    (C10_out_unmodified_on_error (mk' 2 2) (TimeoutQueue.mk' 2)
      (some ⟨7, 7⟩) 0 false).1 (by decide)⟩

theorem set_free_self {l : List Node} {i : Nat}
    (h : l.getD i Node.free = Node.free) : l.set i Node.free = l := by
  apply List.ext_getElem?
  intro n
  rw [List.getElem?_set]
  split
  · rename_i hin
    subst hin
    split
    · rename_i hlen
      rw [List.getD_eq_getElem _ _ hlen] at h
      rw [List.getElem?_eq_getElem hlen, h]
    · rename_i hlen
      rw [eq_comm, List.getElem?_eq_none_iff]
      omega
  · rfl

/-- C7 counterexample: on a non-empty store, push(x) followed by pop
returns the old head, not x, and does not restore the pre-push state. -/
theorem C7_counterexample :
    ((((mk' 2 2).push ⟨0, 0⟩).2.push ⟨1, 0⟩).1 = Status.Ok) ∧
      (((((mk' 2 2).push ⟨0, 0⟩).2.push ⟨1, 0⟩).2.pop none).2.2 ≠
        some (⟨1, 0⟩ : Item)) ∧
      (((((mk' 2 2).push ⟨0, 0⟩).2.push ⟨1, 0⟩).2.pop none).2.1 ≠
        ((mk' 2 2).push ⟨0, 0⟩).2) := by
  decide

/-- C7 (amended): on an *empty* store satisfying the invariant, a push
that returns `Ok` followed immediately by pop returns `Ok` with a
reference to the pushed item, and restores exactly the pre-push state;
on a non-empty store pop returns the head, which predates the pushed
item. -/
theorem C7_roundtrip_on_empty {s : UniqueIdQueue} {c : Item}
    (out : Option Item) (h : Inv s) (hemp : s.isEmpty = true)
    (hok : (s.push c).1 = Status.Ok) :
    ((s.push c).2.pop out).1 = Status.Ok ∧
      ((s.push c).2.pop out).2.2 = some c ∧
      ((s.push c).2.pop out).2.1 = s := by
  obtain ⟨L, hL⟩ := h
  have hsz : s.size_ = 0 := by simpa [isEmpty] using hemp
  have hLnil : L = [] := by
    have h2 := hL.size_eq
    rw [hsz] at h2
    exact List.eq_nil_of_length_eq_zero h2.symm
  subst hLnil
  obtain ⟨hful, hid, hocc⟩ := push_ok_iff.mp hok
  have hlt : c.id < s.capacity_ := by simpa [IdValid] using hid
  have hlen : c.id < s.data_.length := lt_of_lt_of_le hlt hL.cap_le
  have htail : s.tail_ = kNil := hL.tail_eq
  have hhead : s.head_ = kNil := hL.head_eq
  have hfree : s.getNode c.id = Node.free := hL.free_eq _ hlen (by simp)
  rw [push_eq_ok_empty hful hid hocc hlen htail]
  set S : UniqueIdQueue :=
    { s with data_ := s.data_.set c.id ⟨kNil, kNil, some c⟩,
             head_ := c.id, tail_ := c.id, size_ := s.size_ + 1 } with hSdef
  have hgn : S.getNode c.id = ⟨kNil, kNil, some c⟩ := by
    rw [hSdef]
    show (s.data_.set c.id _).getD c.id Node.free = _
    rw [getD_set_self _ _ _ hlen]
  have hSemp : S.isEmpty = false := by rw [hSdef]; simp [isEmpty]
  have hShead : S.head_ = c.id := by rw [hSdef]
  have hunl : S.unlink S.head_ =
      { S with head_ := kNil, tail_ := kNil,
               data_ := S.data_.set c.id Node.free } := by
    rw [hShead]
    exact unlink_eq_nil_nil (by rw [hgn]) (by rw [hgn])
  refine ⟨by simp [pop, hSemp], ?_, ?_⟩
  · simp only [pop, hSemp, Bool.false_eq_true, if_false]
    show (S.getNode c.id).data = some c
    rw [hgn]
  · simp only [pop, hSemp, Bool.false_eq_true, if_false]
    rw [hunl]
    show ({ size_ := s.size_ + 1 - 1, capacity_ := s.capacity_,
            head_ := kNil, tail_ := kNil,
            data_ := (s.data_.set c.id ⟨kNil, kNil, some c⟩).set c.id
              Node.free } : UniqueIdQueue) = s
    rw [List.set_set, set_free_self hfree, Nat.add_sub_cancel]
    have hsrec : s =
        ({ size_ := s.size_, capacity_ := s.capacity_, head_ := s.head_,
           tail_ := s.tail_, data_ := s.data_ } : UniqueIdQueue) := rfl
    conv_rhs => rw [hsrec, hhead, htail]

theorem C7_roundtrip_on_empty_witness :
    Inv (mk' 2 2) ∧ (mk' 2 2).isEmpty = true ∧
      ((mk' 2 2).push ⟨1, 5⟩).1 = Status.Ok ∧
      (((mk' 2 2).push ⟨1, 5⟩).2.pop none).1 = Status.Ok ∧
      (((mk' 2 2).push ⟨1, 5⟩).2.pop none).2.2 = some ⟨1, 5⟩ ∧
      (((mk' 2 2).push ⟨1, 5⟩).2.pop none).2.1 = mk' 2 2 := by
  have hinv : Inv (mk' 2 2) :=
    ⟨[], mk'_listInv 2 2 (le_refl 2) (by norm_num [kNil])⟩
  obtain ⟨h1, h2, h3⟩ :=
    @C7_roundtrip_on_empty (mk' 2 2) ⟨1, 5⟩ none hinv (by decide) (by decide)
  exact ⟨hinv, by decide, by decide, h1, h2, h3⟩

/-- C6: starting from an empty store, after a sequence of successful
pushes, removing one interior (non-head, non-tail) element succeeds and
repeatedly popping yields exactly the remaining elements in their
original insertion order with the removed one skipped. -/
theorem C6_remove_interior_keeps_fifo (Cap cap : Nat) (X Y : List Item)
    (c : Item) (h1 : cap ≤ Cap) (h2 : cap < 2 ^ 16) (hX : X ≠ [])
    (hY : Y ≠ []) (hok : pushSeqOk (mk' Cap cap) (X ++ c :: Y) = true) :
    (((mk' Cap cap).pushSeq (X ++ c :: Y)).removeItem c).1 = Status.Ok ∧
      popAll (((mk' Cap cap).pushSeq (X ++ c :: Y)).removeItem c).2 =
        X ++ Y := by
  have hL0 := mk'_listInv Cap cap h1 (lt_trans h2 (by norm_num [kNil]))
  obtain ⟨hinv, hpres, hnew⟩ := pushSeq_spec hL0 hok
  set sN := (mk' Cap cap).pushSeq (X ++ c :: Y) with hsN
  have hmap : ([] : List Nat) ++ (X ++ c :: Y).map Item.id =
      X.map Item.id ++ c.id :: Y.map Item.id := by
    simp
  rw [hmap] at hinv
  have hsz := hinv.size_eq
  have hemp : sN.isEmpty = false := by
    simp only [isEmpty, hsz, List.length_append, List.length_cons,
      beq_eq_false_iff_ne, ne_eq]
    omega
  have hri : sN.removeItem c = sN.removeId c.id := by
    simp [removeItem, hemp]
  obtain ⟨hst, hinv2, hdat⟩ := removeId_ok_spec hinv
  constructor
  · rw [hri]; exact hst
  · rw [hri]
    rw [popAll_spec hinv2]
    have hitem : ∀ x ∈ X ++ Y, ((sN.removeId c.id).2).itemAt x.id = x := by
      intro x hx
      have hmem : x.id ∈ X.map Item.id ++ Y.map Item.id := by
        rcases List.mem_append.mp hx with hx2 | hx2
        · exact List.mem_append_left _ (List.mem_map_of_mem _ hx2)
        · exact List.mem_append_right _ (List.mem_map_of_mem _ hx2)
      have hxc : x ∈ X ++ c :: Y := by
        rcases List.mem_append.mp hx with hx2 | hx2
        · exact List.mem_append_left _ hx2
        · exact List.mem_append_right _ (List.mem_cons_of_mem _ hx2)
      have hdx := hdat x.id hmem
      have hnx := hnew x hxc
      simp [itemAt, hdx, hnx]
    rw [← List.map_append, List.map_map]
    have heq : (X ++ Y).map (((sN.removeId c.id).2).itemAt ∘ Item.id) =
        (X ++ Y).map id :=
      List.map_congr_left fun x hx => by
        simpa [Function.comp] using hitem x hx
    rw [heq, List.map_id]

theorem C6_remove_interior_keeps_fifo_witness :
    pushSeqOk (mk' 3 3) [⟨0, 0⟩, ⟨1, 0⟩, ⟨2, 0⟩] = true ∧
      (((mk' 3 3).pushSeq [⟨0, 0⟩, ⟨1, 0⟩, ⟨2, 0⟩]).removeItem
        ⟨1, 0⟩).1 = Status.Ok ∧
      popAll (((mk' 3 3).pushSeq [⟨0, 0⟩, ⟨1, 0⟩, ⟨2, 0⟩]).removeItem
        ⟨1, 0⟩).2 = [⟨0, 0⟩, ⟨2, 0⟩] := by
  have h := C6_remove_interior_keeps_fifo 3 3 [⟨0, 0⟩] [⟨2, 0⟩] ⟨1, 0⟩
    (le_refl 3) (by decide) (by decide) (by decide) (by decide)
  exact ⟨by decide, h.1, h.2⟩

theorem chainSeg_prev_cases {s : UniqueIdQueue} {L : List Nat}
    {p q : Nat} (h : chainSeg s p L q) (hnd : L.Nodup) :
    ∀ i ∈ L, (s.getNode i).prev = p ∨
      ((s.getNode i).prev ∈ L ∧ (s.getNode i).prev ≠ i) := by
  induction L generalizing p with
  | nil => simp
  | cons a rest ih =>
    obtain ⟨h1, _, h3⟩ := h
    obtain ⟨hna, hndr⟩ := List.nodup_cons.mp hnd
    intro i hi
    rcases List.mem_cons.mp hi with rfl | hi
    · left; exact h1
    · rcases ih h3 hndr i hi with he | ⟨hm, hne⟩
      · right
        refine ⟨by rw [he]; simp, ?_⟩
        rw [he]
        intro e
        exact hna (by rw [e]; exact hi)
      · right; exact ⟨by simp [hm], hne⟩

theorem chainSeg_next_cases {s : UniqueIdQueue} {L : List Nat}
    {p q : Nat} (h : chainSeg s p L q) (hnd : L.Nodup) :
    ∀ i ∈ L, (s.getNode i).next = q ∨
      ((s.getNode i).next ∈ L ∧ (s.getNode i).next ≠ i) := by
  induction L generalizing p with
  | nil => simp
  | cons a rest ih =>
    obtain ⟨_, h2, h3⟩ := h
    obtain ⟨hna, hndr⟩ := List.nodup_cons.mp hnd
    intro i hi
    rcases List.mem_cons.mp hi with rfl | hi
    · cases rest with
      | nil => left; simpa using h2
      | cons b rest2 =>
        right
        have hb : (s.getNode i).next = b := by simpa using h2
        refine ⟨by rw [hb]; simp, ?_⟩
        rw [hb]
        intro e
        exact hna (by rw [← e]; simp)
    · rcases ih h3 hndr i hi with he | ⟨hm, hne⟩
      · left; exact he
      · right; exact ⟨by simp [hm], hne⟩

theorem head_mem {s : UniqueIdQueue} {L : List Nat} (h : listInv s L)
    (hne : L ≠ []) : s.head_ ∈ L := by
  cases L with
  | nil => exact absurd rfl hne
  | cons a rest =>
    rw [h.head_eq]
    simp

theorem tail_mem {s : UniqueIdQueue} {L : List Nat} (h : listInv s L)
    (hne : s.tail_ ≠ kNil) : s.tail_ ∈ L := by
  rcases List.eq_nil_or_concat L with rfl | ⟨L0, t, rfl⟩
  · exact absurd h.tail_eq hne
  · rw [List.concat_eq_append] at *
    rw [h.tail_eq, List.getLastD_concat]
    simp

theorem unlinkAccesses_eq_nil {s : UniqueIdQueue} {i : Nat}
    (hp : (s.getNode i).prev = kNil) :
    s.unlinkAccesses i =
      i :: (if (s.getNode i).next ≠ kNil then [(s.getNode i).next]
        else []) := by
  simp [unlinkAccesses, hp]

theorem unlinkAccesses_eq_prev {s : UniqueIdQueue} {i : Nat}
    (hp : (s.getNode i).prev ≠ kNil) (hpi : (s.getNode i).prev ≠ i) :
    s.unlinkAccesses i =
      i :: ((s.getNode i).prev ::
        (if (s.getNode i).next ≠ kNil then [(s.getNode i).next]
          else [])) := by
  simp only [unlinkAccesses]
  rw [if_pos hp, if_pos hp]
  rw [getNode_setNode_ne _ hpi]
  simp

theorem unlinkAccesses_bound {s : UniqueIdQueue} {L : List Nat} {i : Nat}
    (h : listInv s L) (hi : i ∈ L) :
    ∀ x ∈ s.unlinkAccesses i, x < s.data_.length := by
  have hilt : i < s.capacity_ := h.mem_lt i hi
  have hilen : i < s.data_.length := lt_of_lt_of_le hilt h.cap_le
  have hprev := chainSeg_prev_cases h.chain h.nodup i hi
  have hnext := chainSeg_next_cases h.chain h.nodup i hi
  have hmem_lt : ∀ j ∈ L, j < s.data_.length := fun j hj =>
    lt_of_lt_of_le (h.mem_lt j hj) h.cap_le
  have hnx : ∀ x, (s.getNode i).next ≠ kNil → x = (s.getNode i).next →
      x < s.data_.length := by
    intro x hn hx
    subst hx
    rcases hnext with he | ⟨hm, -⟩
    · exact absurd he hn
    · exact hmem_lt _ hm
  intro x hx
  by_cases hp : (s.getNode i).prev = kNil
  · rw [unlinkAccesses_eq_nil hp] at hx
    rcases List.mem_cons.mp hx with rfl | hx2
    · exact hilen
    · by_cases hn : (s.getNode i).next ≠ kNil
      · rw [if_pos hn] at hx2
        exact hnx x hn (by simpa using hx2)
      · rw [if_neg hn] at hx2
        simp at hx2
  · rcases hprev with he | ⟨hpm, hpne⟩
    · exact absurd he hp
    rw [unlinkAccesses_eq_prev hp hpne] at hx
    rcases List.mem_cons.mp hx with rfl | hx2
    · exact hilen
    · rcases List.mem_cons.mp hx2 with rfl | hx3
      · exact hmem_lt _ hpm
      · by_cases hn : (s.getNode i).next ≠ kNil
        · rw [if_pos hn] at hx3
          exact hnx x hn (by simpa using hx3)
        · rw [if_neg hn] at hx3
          simp at hx3

/-- C9: under the structural invariant (which holds exactly for stores
whose runtime capacity does not exceed the array length, i.e. the
template `Capacity`), every array index that push, front, pop, and
remove subscript is within the bounds of the slot array; the
constructor does not check the precondition, and with runtime capacity
3 over a template capacity of 2, a push with identity 2 — accepted by
`IdValid` — subscripts index 2, past the end of the array. -/
theorem C9_accesses_in_bounds (s : UniqueIdQueue) (c : Item) (id : Nat)
    (h : Inv s) :
    (∀ x ∈ s.pushAccesses c, x < s.data_.length) ∧
      (∀ x ∈ s.frontAccesses, x < s.data_.length) ∧
      (∀ x ∈ s.popAccesses, x < s.data_.length) ∧
      (∀ x ∈ s.removeIdAccesses id, x < s.data_.length) ∧
      (∀ x ∈ s.removeItemAccesses c, x < s.data_.length) ∧
      ((mk' 2 3).IdValid 2 = true ∧
        2 ∈ (mk' 2 3).pushAccesses ⟨2, 0⟩ ∧
        ¬ 2 < (mk' 2 3).data_.length) := by
  obtain ⟨L, hL⟩ := h
  have hmem_lt : ∀ j ∈ L, j < s.data_.length := fun j hj =>
    lt_of_lt_of_le (hL.mem_lt j hj) hL.cap_le
  have hLne : s.isEmpty = false → L ≠ [] := by
    intro hemp hnil
    subst hnil
    rw [isEmpty, hL.size_eq] at hemp
    simp at hemp
  refine ⟨?_, ?_, ?_, ?_, ?_, by decide⟩
  · intro x hx
    simp only [pushAccesses] at hx
    by_cases h1 : s.full
    · simp [h1] at hx
    · rw [if_neg (by simp [h1])] at hx
      by_cases h2 : s.IdValid c.id
      · have hclt : c.id < s.data_.length :=
          lt_of_lt_of_le (by simpa [IdValid] using h2) hL.cap_le
        rw [if_neg (by simp [h2])] at hx
        by_cases h3 : (s.getNode c.id).occupied
        · rw [if_pos h3] at hx
          simp only [List.mem_singleton] at hx
          subst hx
          exact hclt
        · rw [if_neg h3] at hx
          simp only [linkAccesses] at hx
          rcases List.mem_cons.mp hx with rfl | hx2
          · exact hclt
          · rcases List.mem_cons.mp hx2 with rfl | hx3
            · exact hclt
            · by_cases h4 : s.tail_ ≠ kNil
              · rw [if_pos h4] at hx3
                have : x = s.tail_ := by simpa using hx3
                subst this
                exact hmem_lt _ (tail_mem hL h4)
              · rw [if_neg h4] at hx3
                simp at hx3
      · simp [h2] at hx
  · intro x hx
    simp only [frontAccesses] at hx
    by_cases h1 : s.isEmpty
    · simp [h1] at hx
    · rw [if_neg h1] at hx
      have : x = s.head_ := by simpa using hx
      subst this
      exact hmem_lt _ (head_mem hL (hLne (by simpa using h1)))
  · intro x hx
    simp only [popAccesses] at hx
    by_cases h1 : s.isEmpty
    · simp [h1] at hx
    · rw [if_neg h1] at hx
      have hhm : s.head_ ∈ L := head_mem hL (hLne (by simpa using h1))
      rcases List.mem_cons.mp hx with rfl | hx2
      · exact hmem_lt _ hhm
      · exact unlinkAccesses_bound hL hhm x hx2
  · intro x hx
    simp only [removeIdAccesses] at hx
    by_cases h1 : s.IdValid id
    · have hidlt : id < s.data_.length :=
        lt_of_lt_of_le (by simpa [IdValid] using h1) hL.cap_le
      rw [if_neg (by simp [h1])] at hx
      by_cases h2 : (s.getNode id).occupied
      · rw [if_neg (by simp [h2])] at hx
        rcases List.mem_cons.mp hx with rfl | hx2
        · exact hidlt
        · exact unlinkAccesses_bound hL (occupied_mem hL h2) x hx2
      · rw [if_pos (by simpa using h2)] at hx
        have : x = id := by simpa using hx
        subst this
        exact hidlt
    · simp [h1] at hx
  · intro x hx
    simp only [removeItemAccesses] at hx
    by_cases h1 : s.isEmpty
    · simp [h1] at hx
    · rw [if_neg h1] at hx
      simp only [removeIdAccesses] at hx
      by_cases h2 : s.IdValid c.id
      · have hclt : c.id < s.data_.length :=
          lt_of_lt_of_le (by simpa [IdValid] using h2) hL.cap_le
        rw [if_neg (by simp [h2])] at hx
        by_cases h3 : (s.getNode c.id).occupied
        · rw [if_neg (by simp [h3])] at hx
          rcases List.mem_cons.mp hx with rfl | hx2
          · exact hclt
          · exact unlinkAccesses_bound hL (occupied_mem hL h3) x hx2
        · rw [if_pos (by simpa using h3)] at hx
          have : x = c.id := by simpa using hx
          subst this
          exact hclt
      · simp [h2] at hx

theorem C9_accesses_in_bounds_witness :
    Inv (mk' 2 2) ∧
      ∀ x ∈ (mk' 2 2).pushAccesses ⟨0, 0⟩, x < (mk' 2 2).data_.length := by
  have hinv : Inv (mk' 2 2) :=
    ⟨[], mk'_listInv 2 2 (le_refl 2) (by norm_num [kNil])⟩
  exact ⟨hinv, (C9_accesses_in_bounds (mk' 2 2) ⟨0, 0⟩ 0 hinv).1⟩

end UniqueIdQueue

end fcp
